import Mathlib

/-!
Verification of the THD `FileStore` (torch/lib/THD/proto/FileStore.cpp), a
shared-filesystem key/value store: an append-only log of length-prefixed
(key, value) records, a per-instance read cursor `pos_` and cache `cache_`,
and the operations `set`, `get`, `add`, `check`, `wait`.

The shallow embedding below translates the C++ source directly:
* a file is a byte list plus a read/write cursor (`FileState`);
* `File::writeString` / `File::readString` become `fileWriteString` /
  `readStringAt` (note: `SYSCHECK` only inspects `errno`, and a short
  `read(2)` at end-of-file succeeds with `errno = 0`, so a truncated record
  is *not* an error in the source: the unread tail of the zero-initialised
  buffer is returned, i.e. the payload is zero-padded);
* the cache-refresh loop shared by `get`/`add`/`check` becomes `replayAux`
  (a while loop embedded with an explicit fuel that provably suffices);
* every operation takes the shared file (`Option Bytes`, `none` = the file
  does not exist at the path) and the instance state, and returns its result
  together with the new file contents and instance state.  Operations are
  serialized by the whole-file `flock`, so concurrent executions are exactly
  the interleavings of whole operations (`runSchedule`).

`int pos_` is modelled as `Nat` (files beyond `INT_MAX` bytes are out of
scope); `int64_t` arithmetic wraps via `wrap64`.
-/

/-- Byte strings (each entry is one byte value; the C++ `std::string`). -/
abbrev Bytes := List Nat

/-- Little-endian value of a byte list (x86 layout of a `uint32_t`). -/
def decodeLE (bs : Bytes) : Nat := bs.foldr (fun b acc => b + 256 * acc) 0

/-- The four little-endian bytes of `n` as a `uint32_t` (x86 layout). -/
def encodeLE32 (n : Nat) : Bytes :=
  [n % 256, n / 256 % 256, n / 65536 % 256, n / 16777216 % 256]

/-- A file: its byte contents and the descriptor's current offset. -/
structure FileState where
  contents : Bytes
  cursor : Nat
deriving DecidableEq

/-- `write(2)` at the current offset: overwrites in place, extends at the
end, zero-fills any gap beyond end-of-file (POSIX sparse semantics). -/
def overwriteAt (c : Bytes) (off : Nat) (d : Bytes) : Bytes :=
  c.take off ++ List.replicate (off - c.length) 0 ++ d ++ c.drop (off + d.length)

/-- `File::writeString`: a 4-byte length prefix (`uint32_t len = str.size()`)
followed by `len` bytes of payload. -/
def encStr (s : Bytes) : Bytes :=
  encodeLE32 (s.length % 2 ^ 32) ++ s.take (s.length % 2 ^ 32)

/-- One `write(2)` call of `d` at the file's cursor. -/
def fileWrite (f : FileState) (d : Bytes) : FileState :=
  ⟨overwriteAt f.contents f.cursor d, f.cursor + d.length⟩

/-- `File::writeString` on a file: the two consecutive `write` calls (length
prefix, then payload) are modelled as one write of the concatenation. -/
def fileWriteString (f : FileState) (s : Bytes) : FileState :=
  fileWrite f (encStr s)

/-- `File::readString` at position `pos` of contents `c`, returning the
string read and the new file offset.  `SYSCHECK` only looks at `errno`, and a
short `read(2)` at end-of-file returns success with `errno = 0`, so nothing
fails here: bytes past end-of-file stay at the buffer's zero initialisation
(`std::vector<char> buf(len)`), i.e. the payload is zero-padded to the
declared length.  (If even the 4 length bytes are cut short, the unread bytes
of `len` are unspecified stack memory; they are modelled as zero.) -/
def readStringAt (c : Bytes) (pos : Nat) : Bytes × Nat :=
  let avail4 := min 4 (c.length - pos)
  let lenBytes := (c.drop pos).take 4 ++ List.replicate (4 - avail4) 0
  let len := decodeLE lenBytes
  let p1 := pos + avail4
  let avail := min len (c.length - p1)
  let payload := (c.drop p1).take len ++ List.replicate (len - avail) 0
  (payload, p1 + avail)

/-- Per-instance state of a `FileStore`: the read cursor `pos_` and the
key→value map `cache_` (an association list; `std::map` lookup semantics). -/
structure StoreState where
  pos : Nat
  cache : List (Bytes × Bytes)
deriving DecidableEq

/-- A freshly constructed `FileStore` (`pos_(0)`, empty cache). -/
def initStore : StoreState := ⟨0, []⟩

/-- Lookup in the cache (`cache_.count` / read side of `operator[]`). -/
def cacheLookup : List (Bytes × Bytes) → Bytes → Option Bytes
  | [], _ => none
  | (k, v) :: t, key => if k = key then some v else cacheLookup t key

/-- `cache_[k] = v`: update in place or append a new binding. -/
def cacheInsert : List (Bytes × Bytes) → Bytes → Bytes → List (Bytes × Bytes)
  | [], k, v => [(k, v)]
  | (k', v') :: t, k, v =>
    if k' = k then (k, v) :: t else (k', v') :: cacheInsert t k v

/-- `cache_[k]` as used in `FileStore::add`: `std::map::operator[]` returns
the mapped value, inserting a default-constructed (empty) string first when
the key is absent. -/
def mapSubscript (cache : List (Bytes × Bytes)) (k : Bytes) :
    Bytes × List (Bytes × Bytes) :=
  match cacheLookup cache k with
  | some v => (v, cache)
  | none => ([], cacheInsert cache k [])

/-- The cache-refresh loop shared by `get`/`add`/`check`:
`while (size > pos_) { readString k; readString v; cache_[k] = v; pos_ = tell(); }`
with `size = file.size() = c.length` at every call site.  The while loop is
embedded with an explicit fuel; `fuel = c.length - pos` suffices because each
iteration that runs advances `pos` by at least one byte. -/
def replayAux : Nat → Bytes → Nat → List (Bytes × Bytes) →
    Nat × List (Bytes × Bytes)
  | 0, _, pos, cache => (pos, cache)
  | fuel + 1, c, pos, cache =>
    if pos < c.length then
      let rk := readStringAt c pos
      let rv := readStringAt c rk.2
      replayAux fuel c rv.2 (cacheInsert cache rk.1 rv.1)
    else (pos, cache)

/-- The refresh loop with its canonical (sufficient) fuel. -/
def replayLoop (c : Bytes) (pos : Nat) (cache : List (Bytes × Bytes)) :
    Nat × List (Bytes × Bytes) :=
  replayAux (c.length - pos) c pos cache

/-- Outcome of `FileStore::get` against a fixed file: the value returned (with
the instance state after the call), an exception from the read-only `open`
(file missing), or divergence — the poll loop sleeps/retries forever because
the key never appears in an unchanging file. -/
inductive GetOutcome where
  | value : Bytes → StoreState → GetOutcome
  | blocked : StoreState → GetOutcome
  | ioError : GetOutcome
deriving DecidableEq

namespace FileStore

/-- `FileStore::set`: open `O_RDWR | O_CREAT` (creates an empty file when the
path does not exist, never truncates), `lockExclusive`, `seek(0, SEEK_END)`,
`writeString(name)`, `writeString(data)`.  The cache and cursor are not
touched.  Returns the new file contents and the (unchanged) instance state. -/
def set (log : Option Bytes) (s : StoreState) (name data : Bytes) :
    Bytes × StoreState :=
  let f0 : FileState := ⟨log.getD [], 0⟩
  let f1 : FileState := ⟨f0.contents, f0.contents.length⟩
  let f2 := fileWriteString f1 name
  let f3 := fileWriteString f2 data
  (f3.contents, s)

/-- `FileStore::get` against a fixed file.  The outer
`while (cache_.count(key) == 0)` loop returns the cached value without any
file access on a hit; otherwise it opens `O_RDONLY` (throwing if the file
does not exist), and under a shared lock either sleeps (file unchanged since
`pos_`) or replays the new records; on a fixed file a second pass can never
learn more, so a key still missing after one replay blocks forever. -/
def get (log : Option Bytes) (s : StoreState) (key : Bytes) : GetOutcome :=
  match cacheLookup s.cache key with
  | some v => GetOutcome.value v s
  | none =>
    match log with
    | none => GetOutcome.ioError
    | some c =>
      if c.length = s.pos then GetOutcome.blocked s
      else
        let r := replayLoop c s.pos s.cache
        match cacheLookup r.2 key with
        | some v => GetOutcome.value v ⟨r.1, r.2⟩
        | none => GetOutcome.blocked ⟨r.1, r.2⟩

/-- `FileStore::check`: open `O_RDONLY` (throwing if the file does not
exist), refresh when `size != pos_`, then test that every requested key is in
the cache. -/
def check (log : Option Bytes) (s : StoreState) (keys : List Bytes) :
    Except Unit (Bool × StoreState) :=
  match log with
  | none => Except.error ()
  | some c =>
    let r := if c.length = s.pos then (s.pos, s.cache)
             else replayLoop c s.pos s.cache
    Except.ok (keys.all (fun k => (cacheLookup r.2 k).isSome), ⟨r.1, r.2⟩)

/-- Two's-complement wrap of `int64_t` arithmetic. -/
def wrap64 (z : Int) : Int := (z + 2 ^ 63) % 2 ^ 64 - 2 ^ 63

/-- Whitespace for `std::istream` extraction (`" \t\n\v\f\r"`). -/
def isSpaceByte (b : Nat) : Bool :=
  b = 9 || b = 10 || b = 11 || b = 12 || b = 13 || b = 32

/-- ASCII digit test. -/
def isDigitByte (b : Nat) : Bool := 48 ≤ b && b ≤ 57

/-- Value of a list of ASCII digit bytes, most significant first. -/
def digitsVal (ds : List Nat) : Nat := ds.foldl (fun a d => a * 10 + (d - 48)) 0

/-- `std::stringstream >> int64_t`, after the optional sign: read the longest
digit prefix; no digits is an extraction failure and stores 0 (C++11);
overflow stores the clamped value. -/
def parseDigitsSigned (sign : Int) (bs : Bytes) : Int :=
  let ds := bs.takeWhile isDigitByte
  if ds.isEmpty then 0
  else max (-(2 ^ 63)) (min (sign * (digitsVal ds : Int)) (2 ^ 63 - 1))

/-- `std::stringstream sin(str); sin >> ti;` for `int64_t ti`: skip
whitespace, optional `+`/`-` sign, then digits (trailing bytes are left in
the stream and ignored). -/
def streamParseInt64 (bs : Bytes) : Int :=
  match bs.dropWhile isSpaceByte with
  | 43 :: rest => parseDigitsSigned 1 rest
  | 45 :: rest => parseDigitsSigned (-1) rest
  | rest => parseDigitsSigned 1 rest

/-- Decimal digits of a natural number as ASCII bytes (`std::stringstream <<`),
with an explicit fuel; `fuel = n` suffices since the recursion divides by 10. -/
def natDecimalAux : Nat → Nat → Bytes
  | 0, n => [48 + n % 10]
  | fuel + 1, n =>
    if n < 10 then [48 + n] else natDecimalAux fuel (n / 10) ++ [48 + n % 10]

/-- Decimal digits of a natural number as ASCII bytes. -/
def natDecimal (n : Nat) : Bytes := natDecimalAux n n

/-- `std::stringstream << ti` for `int64_t ti`. -/
def int64Decimal (z : Int) : Bytes :=
  if z < 0 then 45 :: natDecimal z.natAbs else natDecimal z.natAbs

/-- `FileStore::add`: open `O_RDWR | O_CREAT`, `lockExclusive`, read the file
size (the descriptor offset is left at 0), refresh the cache when
`size > pos_` (which leaves the descriptor offset at the end of the file),
parse the cached value (`operator[]` inserts an empty string for an absent
key), add the delta, and `writeString` the key and the new decimal value at
the *current descriptor offset* — which is the end of the file only when the
refresh ran; when `size == pos_` and the file is nonempty the offset is still
0 and the write lands at the start of the file.  Returns
`(new value, new file contents, new instance state)`. -/
def add (log : Option Bytes) (s : StoreState) (key : Bytes) (i : Int) :
    Int × Bytes × StoreState :=
  let f0 : FileState := ⟨log.getD [], 0⟩
  let size := f0.contents.length
  let rs :=
    if size > s.pos then
      let r := replayLoop f0.contents s.pos s.cache
      ((⟨f0.contents, r.1⟩ : FileState), (⟨r.1, r.2⟩ : StoreState))
    else (f0, s)
  let sub := mapSubscript rs.2.cache key
  let ti := wrap64 (streamParseInt64 sub.1 + i)
  let f2 := fileWriteString rs.1 key
  let f3 := fileWriteString f2 (int64Decimal ti)
  (ti, f3.contents, ⟨rs.2.pos, sub.2⟩)

/-- The timeout test inside `FileStore::wait`'s poll loop (lines 243-248):
`timeout != kNoTimeout && duration_cast<seconds>(elapsed) > timeout`.
The cast truncates `elapsed` to whole seconds; the mixed-unit comparison then
promotes those seconds back to milliseconds.  Modelled from the spec: the
sentinel `kNoTimeout` (declared in the unavailable `Store.hpp`) is the
"wait forever" timeout value, represented here by `none`; `some t` is a
finite timeout of `t` milliseconds. -/
def waitTimeoutExceeded (timeout : Option Nat) (elapsedMs : Nat) : Bool :=
  match timeout with
  | none => false
  | some t => decide (elapsedMs / 1000 * 1000 > t)

/-- The instance state threaded through `FileStore::wait`'s repeated `check`
calls: one file snapshot per poll; the loop stops when a `check` returns true
(wait returns) or throws (the exception propagates). -/
def waitChecks : List (Option Bytes) → StoreState → List Bytes → StoreState
  | [], s, _ => s
  | log :: rest, s, keys =>
    match check log s keys with
    | Except.error _ => s
    | Except.ok (true, s1) => s1
    | Except.ok (false, s1) => waitChecks rest s1 keys

end FileStore

/-- State carried by a `get` outcome, defaulting to `d` when the call threw. -/
def GetOutcome.stateD : GetOutcome → StoreState → StoreState
  | GetOutcome.value _ s, _ => s
  | GetOutcome.blocked s, _ => s
  | GetOutcome.ioError, d => d

/-- State carried by a `check` outcome, defaulting to `d` when the call threw. -/
def checkStateD : Except Unit (Bool × StoreState) → StoreState → StoreState
  | Except.ok (_, s), _ => s
  | Except.error _, d => d

/-- Length of the shared file, 0 when it does not exist. -/
def optLen (log : Option Bytes) : Nat := (log.getD []).length

/-! ### The record layer: the log as an encoding of a list of records -/

/-- Encoding of one `LogRecord` (key, value). -/
def encRecord (r : Bytes × Bytes) : Bytes := encStr r.1 ++ encStr r.2

/-- Encoding of a record list: the persisted file format `File := Record*`. -/
def encodeRecords : List (Bytes × Bytes) → Bytes
  | [] => []
  | r :: rest => encRecord r ++ encodeRecords rest

/-- A byte string whose 4-byte length prefix is exact (`size() < 2^32`). -/
def WFStr (s : Bytes) : Prop := s.length < 2 ^ 32

instance (s : Bytes) : Decidable (WFStr s) := by unfold WFStr; infer_instance

/-- All keys and values of a record list are well formed. -/
def WFRecs (recs : List (Bytes × Bytes)) : Prop :=
  ∀ r ∈ recs, WFStr r.1 ∧ WFStr r.2

instance (recs : List (Bytes × Bytes)) : Decidable (WFRecs recs) := by
  unfold WFRecs; infer_instance

/-- `p` is a record boundary of the byte string `b`: the first `p` bytes are
exactly the encoding of finitely many complete records. -/
def IsRecordBoundary (b : Bytes) (p : Nat) : Prop :=
  ∃ recs, WFRecs recs ∧ encodeRecords recs = b.take p

/-- Replaying a record list into a cache (the effect of the refresh loop at
the record level). -/
def replayList (cache : List (Bytes × Bytes)) :
    List (Bytes × Bytes) → List (Bytes × Bytes)
  | [] => cache
  | r :: rest => replayList (cacheInsert cache r.1 r.2) rest

/-- The value of the last record for `k` in a record list, if any. -/
def lastValue : List (Bytes × Bytes) → Bytes → Option Bytes
  | [], _ => none
  | r :: rest, k =>
    match lastValue rest k with
    | some v => some v
    | none => if r.1 = k then some r.2 else none

/-! ### Codec lemmas -/

theorem length_encodeLE32 (n : Nat) : (encodeLE32 n).length = 4 := rfl

theorem decodeLE_encodeLE32 (n : Nat) : decodeLE (encodeLE32 n) = n % 2 ^ 32 := by
  simp only [decodeLE, encodeLE32, List.foldr]
  omega

theorem encStr_eq (s : Bytes) (h : WFStr s) :
    encStr s = encodeLE32 s.length ++ s := by
  unfold WFStr at h
  unfold encStr
  rw [Nat.mod_eq_of_lt h, List.take_length]

theorem length_encStr (s : Bytes) (h : WFStr s) :
    (encStr s).length = 4 + s.length := by
  rw [encStr_eq s h, List.length_append, length_encodeLE32]

theorem length_encStr_pos (s : Bytes) : 4 ≤ (encStr s).length := by
  simp only [encStr, List.length_append, length_encodeLE32]
  omega

theorem length_encRecord (r : Bytes × Bytes) (hk : WFStr r.1) (hv : WFStr r.2) :
    (encRecord r).length = 8 + r.1.length + r.2.length := by
  simp only [encRecord, List.length_append, length_encStr r.1 hk,
    length_encStr r.2 hv]
  omega

theorem length_encRecord_pos (r : Bytes × Bytes) : 8 ≤ (encRecord r).length := by
  have h1 := length_encStr_pos r.1
  have h2 := length_encStr_pos r.2
  simp only [encRecord, List.length_append]
  omega

theorem encodeRecords_append (l1 l2 : List (Bytes × Bytes)) :
    encodeRecords (l1 ++ l2) = encodeRecords l1 ++ encodeRecords l2 := by
  induction l1 with
  | nil => simp [encodeRecords]
  | cons r rest ih => simp [encodeRecords, ih]

theorem length_encodeRecords_lt (l1 l2 : List (Bytes × Bytes)) (h : l2 ≠ []) :
    (encodeRecords l1).length < (encodeRecords (l1 ++ l2)).length := by
  match l2, h with
  | r :: rest, _ =>
    rw [encodeRecords_append]
    have := length_encRecord_pos r
    simp only [List.length_append, encodeRecords]
    omega

theorem WFRecs_append_iff (l1 l2 : List (Bytes × Bytes)) :
    WFRecs (l1 ++ l2) ↔ WFRecs l1 ∧ WFRecs l2 := by
  unfold WFRecs
  constructor
  · intro h
    exact ⟨fun r hr => h r (List.mem_append_left _ hr),
           fun r hr => h r (List.mem_append_right _ hr)⟩
  · rintro ⟨h1, h2⟩ r hr
    rcases List.mem_append.mp hr with h | h
    · exact h1 r h
    · exact h2 r h

theorem WFRecs_take_drop (recs : List (Bytes × Bytes)) (h : WFRecs recs) (j : Nat) :
    WFRecs (recs.take j) ∧ WFRecs (recs.drop j) := by
  have := (WFRecs_append_iff (recs.take j) (recs.drop j)).mp
  rw [List.take_append_drop] at this
  exact this h

/-! ### Write lemmas -/

theorem overwriteAt_at_end (c d : Bytes) : overwriteAt c c.length d = c ++ d := by
  simp [overwriteAt, List.drop_eq_nil_of_le]

theorem length_overwriteAt (c d : Bytes) (off : Nat) :
    (overwriteAt c off d).length = max (off + d.length) c.length := by
  simp only [overwriteAt, List.length_append, List.length_take,
    List.length_replicate, List.length_drop]
  omega

theorem fileWriteString_at_end (c : Bytes) (s : Bytes) :
    fileWriteString ⟨c, c.length⟩ s
      = ⟨c ++ encStr s, c.length + (encStr s).length⟩ := by
  simp [fileWriteString, fileWrite, overwriteAt_at_end]

/-- The two `writeString` calls of `set`/`add` performed at end-of-file
append one encoded record. -/
theorem writeRecord_at_end (c k v : Bytes) :
    fileWriteString (fileWriteString ⟨c, c.length⟩ k) v
      = ⟨c ++ encRecord (k, v),
         c.length + (encStr k).length + (encStr v).length⟩ := by
  rw [fileWriteString_at_end]
  have h2 : c.length + (encStr k).length = (c ++ encStr k).length := by
    rw [List.length_append]
  rw [h2, fileWriteString_at_end]
  simp only [encRecord, FileState.mk.injEq, List.append_assoc,
    List.length_append]

/-! ### Read lemmas -/

theorem readStringAt_spec (pre s suf : Bytes) (h : WFStr s) :
    readStringAt (pre ++ (encodeLE32 s.length ++ s) ++ suf) pre.length
      = (s, pre.length + (4 + s.length)) := by
  have hlen : (pre ++ (encodeLE32 s.length ++ s) ++ suf).length
      = pre.length + (4 + s.length) + suf.length := by
    simp only [List.length_append, length_encodeLE32]
  have hdrop : (pre ++ (encodeLE32 s.length ++ s) ++ suf).drop pre.length
      = encodeLE32 s.length ++ (s ++ suf) := by
    rw [List.append_assoc, List.drop_left, List.append_assoc]
  have hdrop2 : (pre ++ (encodeLE32 s.length ++ s) ++ suf).drop (pre.length + 4)
      = s ++ suf := by
    have he : pre ++ (encodeLE32 s.length ++ s) ++ suf
        = (pre ++ encodeLE32 s.length) ++ (s ++ suf) := by
      simp [List.append_assoc]
    rw [he]
    have hl : (pre ++ encodeLE32 s.length).length = pre.length + 4 := by
      rw [List.length_append, length_encodeLE32]
    rw [← hl, List.drop_left]
  have htake4 : (encodeLE32 s.length ++ (s ++ suf)).take 4 = encodeLE32 s.length := by
    have h4 : (encodeLE32 s.length).length = 4 := length_encodeLE32 _
    rw [← h4, List.take_left]
  have htakeS : (s ++ suf).take s.length = s := List.take_left s suf
  unfold WFStr at h
  unfold readStringAt
  simp only [hlen]
  have havail4 : min 4 (pre.length + (4 + s.length) + suf.length - pre.length) = 4 := by
    omega
  rw [havail4, hdrop, htake4]
  simp only [Nat.sub_self, List.replicate_zero, List.append_nil]
  rw [decodeLE_encodeLE32, Nat.mod_eq_of_lt h, hdrop2, htakeS]
  have havail : min s.length (pre.length + (4 + s.length) + suf.length
      - (pre.length + 4)) = s.length := by omega
  rw [havail]
  simp only [Nat.sub_self, List.replicate_zero, List.append_nil, Prod.mk.injEq]
  exact ⟨trivial, by omega⟩

theorem readStringAt_ge (c : Bytes) (pos : Nat) : pos ≤ (readStringAt c pos).2 := by
  unfold readStringAt
  simp only []
  omega

theorem readStringAt_le (c : Bytes) (pos : Nat) (h : pos ≤ c.length) :
    (readStringAt c pos).2 ≤ c.length := by
  unfold readStringAt
  simp only []
  omega

/-! ### Replay-loop lemmas -/

theorem replayAux_nil (fuel : Nat) (c : Bytes) (pos : Nat)
    (cache : List (Bytes × Bytes)) (h : ¬ pos < c.length) :
    replayAux fuel c pos cache = (pos, cache) := by
  cases fuel with
  | zero => rfl
  | succ f => simp [replayAux, h]

/-- The refresh loop run on a file `A ++ encodeRecords recs` from offset
`A.length` decodes exactly the records `recs`, replays them into the cache
and leaves the cursor at end-of-file. -/
theorem replayAux_enc (recs : List (Bytes × Bytes)) :
    ∀ (fuel : Nat) (A : Bytes) (cache : List (Bytes × Bytes)),
    WFRecs recs → (encodeRecords recs).length ≤ fuel →
    replayAux fuel (A ++ encodeRecords recs) A.length cache
      = (A.length + (encodeRecords recs).length, replayList cache recs) := by
  induction recs with
  | nil =>
    intro fuel A cache _ _
    rw [replayAux_nil _ _ _ _ (by simp [encodeRecords])]
    simp [encodeRecords, replayList]
  | cons r rest ih =>
    intro fuel A cache hwf hfuel
    obtain ⟨hk, hv⟩ := hwf r (List.mem_cons_self r rest)
    have hrest : WFRecs rest := fun q hq => hwf q (List.mem_cons_of_mem r hq)
    have hlenr : (encodeRecords (r :: rest)).length
        = (8 + r.1.length + r.2.length) + (encodeRecords rest).length := by
      simp only [encodeRecords, List.length_append, length_encRecord r hk hv]
    cases fuel with
    | zero =>
      exfalso
      have hpos := length_encRecord_pos r
      simp only [encodeRecords, List.length_append] at hfuel
      omega
    | succ f =>
      have hguard : A.length < (A ++ encodeRecords (r :: rest)).length := by
        have := length_encRecord_pos r
        simp only [encodeRecords, List.length_append]
        omega
      have hsplit : A ++ encodeRecords (r :: rest)
          = A ++ (encodeLE32 r.1.length ++ r.1)
              ++ ((encodeLE32 r.2.length ++ r.2) ++ encodeRecords rest) := by
        simp only [encodeRecords, encRecord, encStr_eq r.1 hk, encStr_eq r.2 hv,
          List.append_assoc]
      have hread1 : readStringAt (A ++ encodeRecords (r :: rest)) A.length
          = (r.1, A.length + (4 + r.1.length)) := by
        rw [hsplit]
        have := readStringAt_spec A r.1
          ((encodeLE32 r.2.length ++ r.2) ++ encodeRecords rest) hk
        rw [List.append_assoc] at this ⊢
        exact this
      have hpre2 : A.length + (4 + r.1.length)
          = (A ++ (encodeLE32 r.1.length ++ r.1)).length := by
        simp only [List.length_append, length_encodeLE32]
      have hread2 : readStringAt (A ++ encodeRecords (r :: rest))
            (A.length + (4 + r.1.length))
          = (r.2, A.length + (4 + r.1.length) + (4 + r.2.length)) := by
        rw [hpre2, hsplit]
        have hs2 : A ++ (encodeLE32 r.1.length ++ r.1)
              ++ ((encodeLE32 r.2.length ++ r.2) ++ encodeRecords rest)
            = (A ++ (encodeLE32 r.1.length ++ r.1))
              ++ (encodeLE32 r.2.length ++ r.2) ++ encodeRecords rest := by
          simp [List.append_assoc]
        rw [hs2]
        rw [readStringAt_spec (A ++ (encodeLE32 r.1.length ++ r.1)) r.2
          (encodeRecords rest) hv]
      show (if A.length < (A ++ encodeRecords (r :: rest)).length then _ else _) = _
      rw [if_pos hguard]
      simp only [hread1, hread2]
      have hA2 : A.length + (4 + r.1.length) + (4 + r.2.length)
          = (A ++ encRecord r).length := by
        simp only [List.length_append, encRecord, length_encStr r.1 hk,
          length_encStr r.2 hv]
        omega
      have hsplit2 : A ++ encodeRecords (r :: rest)
          = (A ++ encRecord r) ++ encodeRecords rest := by
        simp only [encodeRecords, List.append_assoc]
      rw [hA2, hsplit2, ih f (A ++ encRecord r) (cacheInsert cache r.1 r.2)
        hrest (by omega)]
      simp only [Prod.mk.injEq, List.length_append, replayList]
      refine ⟨?_, ?_⟩
      · rw [hlenr, length_encRecord r hk hv]
        omega
      · trivial

theorem replayLoop_enc (pre recs : List (Bytes × Bytes))
    (cache : List (Bytes × Bytes)) (hwf : WFRecs recs) :
    replayLoop (encodeRecords pre ++ encodeRecords recs)
        (encodeRecords pre).length cache
      = ((encodeRecords pre ++ encodeRecords recs).length,
         replayList cache recs) := by
  unfold replayLoop
  rw [replayAux_enc recs _ (encodeRecords pre) cache hwf (by simp)]
  simp

theorem replayAux_ge (fuel : Nat) :
    ∀ (c : Bytes) (pos : Nat) (cache : List (Bytes × Bytes)),
    pos ≤ (replayAux fuel c pos cache).1 := by
  induction fuel with
  | zero => intro c pos cache; exact Nat.le_refl _
  | succ f ih =>
    intro c pos cache
    by_cases h : pos < c.length
    · simp only [replayAux, if_pos h]
      have h1 := readStringAt_ge c pos
      have h2 := readStringAt_ge c (readStringAt c pos).2
      exact le_trans (le_trans h1 h2) (ih c _ _)
    · rw [replayAux_nil _ _ _ _ h]

theorem replayAux_le (fuel : Nat) :
    ∀ (c : Bytes) (pos : Nat) (cache : List (Bytes × Bytes)),
    pos ≤ c.length → (replayAux fuel c pos cache).1 ≤ c.length := by
  induction fuel with
  | zero => intro c pos cache h; exact h
  | succ f ih =>
    intro c pos cache h
    by_cases hg : pos < c.length
    · simp only [replayAux, if_pos hg]
      have h1 := readStringAt_le c pos h
      have h2 := readStringAt_le c (readStringAt c pos).2 h1
      exact ih c _ _ h2
    · rw [replayAux_nil _ _ _ _ hg]
      exact h

/-! ### Cache lemmas -/

theorem cacheLookup_insert_self (cache : List (Bytes × Bytes)) (k v : Bytes) :
    cacheLookup (cacheInsert cache k v) k = some v := by
  induction cache with
  | nil => simp [cacheInsert, cacheLookup]
  | cons p t ih =>
    by_cases h : p.1 = k
    · simp [cacheInsert, cacheLookup, h]
    · simp [cacheInsert, cacheLookup, h, ih]

theorem cacheLookup_insert_ne (cache : List (Bytes × Bytes)) (k v q : Bytes)
    (h : k ≠ q) :
    cacheLookup (cacheInsert cache k v) q = cacheLookup cache q := by
  induction cache with
  | nil => simp [cacheInsert, cacheLookup, h]
  | cons p t ih =>
    obtain ⟨p1, p2⟩ := p
    by_cases hp : p1 = k
    · subst hp
      simp [cacheInsert, cacheLookup, h]
    · simp [cacheInsert, cacheLookup, hp, ih]

theorem cacheLookup_replayList (recs : List (Bytes × Bytes)) :
    ∀ (cache : List (Bytes × Bytes)) (k : Bytes),
    cacheLookup (replayList cache recs) k
      = match lastValue recs k with
        | some v => some v
        | none => cacheLookup cache k := by
  induction recs with
  | nil => intro cache k; simp [replayList, lastValue]
  | cons r rest ih =>
    intro cache k
    show cacheLookup (replayList (cacheInsert cache r.1 r.2) rest) k = _
    rw [ih (cacheInsert cache r.1 r.2) k]
    cases hlast : lastValue rest k with
    | some v => simp [lastValue, hlast]
    | none =>
      by_cases hk : r.1 = k
      · subst hk
        simp [lastValue, hlast, cacheLookup_insert_self]
      · simp [lastValue, hlast, hk, cacheLookup_insert_ne cache r.1 r.2 k hk]

theorem lastValue_append_last (l : List (Bytes × Bytes)) (k v q : Bytes) :
    lastValue (l ++ [(k, v)]) q
      = if k = q then some v else lastValue l q := by
  induction l with
  | nil => simp [lastValue]
  | cons r t ih =>
    by_cases hk : k = q
    · subst hk
      simp [lastValue, ih]
    · simp [lastValue, ih, hk]

theorem lastValue_eq_none (l : List (Bytes × Bytes)) (k : Bytes)
    (h : ∀ r ∈ l, r.1 ≠ k) : lastValue l k = none := by
  induction l with
  | nil => rfl
  | cons r t ih =>
    have hr := h r (List.mem_cons_self r t)
    have ht := ih (fun q hq => h q (List.mem_cons_of_mem r hq))
    simp [lastValue, ht, hr]

/-! ### Decimal printing and stream parsing -/

namespace FileStore

theorem natDecimalAux_spec (fuel : Nat) :
    ∀ n : Nat, n ≤ fuel →
    natDecimalAux fuel n ≠ [] ∧
    (∀ b ∈ natDecimalAux fuel n, 48 ≤ b ∧ b ≤ 57) ∧
    digitsVal (natDecimalAux fuel n) = n := by
  induction fuel with
  | zero =>
    intro n hn
    have hn0 : n = 0 := Nat.le_zero.mp hn
    subst hn0
    refine ⟨by simp [natDecimalAux], ?_, by simp [natDecimalAux, digitsVal]⟩
    intro b hb
    simp [natDecimalAux] at hb
    omega
  | succ f ih =>
    intro n hn
    by_cases h10 : n < 10
    · refine ⟨by simp [natDecimalAux, h10], ?_, ?_⟩
      · intro b hb
        simp [natDecimalAux, h10] at hb
        omega
      · simp [natDecimalAux, h10, digitsVal]
    · have hrec := ih (n / 10) (by omega)
      obtain ⟨hne, hdig, hval⟩ := hrec
      have heq : natDecimalAux (f + 1) n
          = natDecimalAux f (n / 10) ++ [48 + n % 10] := by
        simp [natDecimalAux, h10]
      refine ⟨by simp [heq], ?_, ?_⟩
      · intro b hb
        rw [heq] at hb
        rcases List.mem_append.mp hb with h | h
        · exact hdig b h
        · simp at h
          omega
      · rw [heq]
        unfold digitsVal at hval ⊢
        rw [List.foldl_append]
        simp only [List.foldl]
        rw [hval]
        omega

theorem natDecimal_ne_nil (n : Nat) : natDecimal n ≠ [] :=
  (natDecimalAux_spec n n (Nat.le_refl n)).1

theorem natDecimal_digits (n : Nat) :
    ∀ b ∈ natDecimal n, 48 ≤ b ∧ b ≤ 57 :=
  (natDecimalAux_spec n n (Nat.le_refl n)).2.1

theorem digitsVal_natDecimal (n : Nat) : digitsVal (natDecimal n) = n :=
  (natDecimalAux_spec n n (Nat.le_refl n)).2.2

theorem natDecimalAux_length (b : Nat) :
    ∀ (fuel n : Nat), n ≤ fuel → n < 10 ^ b → 1 ≤ b →
    (natDecimalAux fuel n).length ≤ b := by
  induction b with
  | zero => intro fuel n _ _ h1; omega
  | succ b ih =>
    intro fuel n hfuel hlt _
    cases fuel with
    | zero =>
      have hn0 : n = 0 := Nat.le_zero.mp hfuel
      subst hn0
      simp [natDecimalAux]
    | succ f =>
      by_cases h10 : n < 10
      · simp [natDecimalAux, h10]
      · have hb1 : 1 ≤ b := by
          by_contra hb
          have hb0 : b = 0 := by omega
          subst hb0
          simp at hlt
          omega
        have hdiv : n / 10 < 10 ^ b := by
          have : n < 10 ^ b * 10 := by
            rw [pow_succ] at hlt
            omega
          omega
        have := ih f (n / 10) (by omega) hdiv hb1
        simp [natDecimalAux, h10]
        omega

theorem natDecimal_length_le (b n : Nat) (hlt : n < 10 ^ b) (hb : 1 ≤ b) :
    (natDecimal n).length ≤ b :=
  natDecimalAux_length b n n (Nat.le_refl n) hlt hb

/-- Any `int64` prints in at most 20 bytes, so counter values are
well-formed strings. -/
theorem WFStr_natDecimal (n : Nat) (h : n < 2 ^ 63) : WFStr (natDecimal n) := by
  have h19 : n < 10 ^ 19 := by
    have : (2 : Nat) ^ 63 < 10 ^ 19 := by norm_num
    omega
  have := natDecimal_length_le 19 n h19 (by omega)
  unfold WFStr
  omega

theorem takeWhile_all_digits (l : Bytes) (h : ∀ b ∈ l, 48 ≤ b ∧ b ≤ 57) :
    l.takeWhile isDigitByte = l := by
  induction l with
  | nil => rfl
  | cons b t ih =>
    have hb := h b (List.mem_cons_self b t)
    have hbd : isDigitByte b = true := by
      unfold isDigitByte
      simp
      omega
    simp [List.takeWhile, hbd, ih (fun q hq => h q (List.mem_cons_of_mem b hq))]

theorem streamParseInt64_natDecimal (n : Nat) (h : n < 2 ^ 63) :
    streamParseInt64 (natDecimal n) = (n : Int) := by
  obtain ⟨b, t, hbt⟩ : ∃ b t, natDecimal n = b :: t := by
    cases hd : natDecimal n with
    | nil => exact absurd hd (natDecimal_ne_nil n)
    | cons b t => exact ⟨b, t, rfl⟩
  have hdigs := natDecimal_digits n
  have hb := hdigs b (by rw [hbt]; exact List.mem_cons_self b t)
  have hsp : isSpaceByte b = false := by
    unfold isSpaceByte
    simp
    omega
  have hdrop : (natDecimal n).dropWhile isSpaceByte = b :: t := by
    rw [hbt, List.dropWhile_cons, hsp]
    simp
  have hparse : parseDigitsSigned 1 (b :: t) = (n : Int) := by
    unfold parseDigitsSigned
    have htw : (b :: t).takeWhile isDigitByte = b :: t := by
      rw [← hbt]
      exact takeWhile_all_digits _ hdigs
    rw [htw]
    have hdv : ((digitsVal (b :: t) : Nat) : Int) = (n : Int) := by
      rw [← hbt, digitsVal_natDecimal]
    have hlt : (n : Int) < 2 ^ 63 := by exact_mod_cast h
    simp only [List.isEmpty_cons, Bool.false_eq_true, if_false, one_mul, hdv]
    omega
  unfold streamParseInt64
  rw [hdrop]
  have hb43 : b ≠ 43 := by omega
  have hb45 : b ≠ 45 := by omega
  split
  · rename_i heq
    rw [List.cons.injEq] at heq
    exact absurd heq.1 hb43
  · rename_i heq
    rw [List.cons.injEq] at heq
    exact absurd heq.1 hb45
  · exact hparse

theorem wrap64_small (z : Int) (h0 : 0 ≤ z) (h1 : z < 2 ^ 63) :
    wrap64 z = z := by
  unfold wrap64
  omega

theorem wrap64_lb (z : Int) : -(2 ^ 63) ≤ wrap64 z := by
  unfold wrap64
  omega

theorem wrap64_ub (z : Int) : wrap64 z < 2 ^ 63 := by
  unfold wrap64
  omega

theorem streamParseInt64_nil : streamParseInt64 [] = 0 := rfl

/-- `int64Decimal` of any wrapped value is a well-formed string. -/
theorem WFStr_int64Decimal_wrap (z : Int) : WFStr (int64Decimal (wrap64 z)) := by
  have hlb := wrap64_lb z
  have hub := wrap64_ub z
  have habs : (wrap64 z).natAbs ≤ 2 ^ 63 := by omega
  have h19 : (wrap64 z).natAbs < 10 ^ 19 := by
    have : (2 : Nat) ^ 63 < 10 ^ 19 := by norm_num
    omega
  have hlen := natDecimal_length_le 19 (wrap64 z).natAbs h19 (by omega)
  unfold int64Decimal WFStr
  by_cases hz : wrap64 z < 0
  · simp only [hz, if_true, List.length_cons]
    omega
  · simp only [hz, if_false]
    omega

theorem int64Decimal_ofNat (n : Nat) : int64Decimal (n : Int) = natDecimal n := by
  unfold int64Decimal
  have : ¬ ((n : Int) < 0) := by omega
  simp [this]

end FileStore

/-! ### The concurrent-counter scenario (FileStoreTest.cpp hammer test) -/

/-- The key `"counter"` as bytes. -/
def counterKey : Bytes := [99, 111, 117, 110, 116, 101, 114]

/-- The log contents after `t` serialized `add("counter", 1)` calls: the
`j`-th record is `("counter", decimal (j+1))`. -/
def counterRecs (t : Nat) : List (Bytes × Bytes) :=
  (List.range t).map (fun j => (counterKey, FileStore.natDecimal (j + 1)))

/-- One scheduled step: instance `i` performs `add("counter", 1)` against the
current file; its private state is updated in place.  Because `add` holds the
exclusive `flock` for its whole read-modify-append sequence, every concurrent
execution is an interleaving of such atomic steps. -/
def addStep (N : Nat) (acc : Bytes × (Fin N → StoreState)) (i : Fin N) :
    Bytes × (Fin N → StoreState) :=
  let r := FileStore.add (some acc.1) (acc.2 i) counterKey 1
  (r.2.1, Function.update acc.2 i r.2.2)

/-- Run a whole schedule of `add("counter", 1)` steps from an empty file
(`mkstemp` creates the file empty) and freshly constructed instances. -/
def runSchedule (N : Nat) (sched : List (Fin N)) :
    Bytes × (Fin N → StoreState) :=
  sched.foldl (addStep N) ([], fun _ => initStore)

/-! ### A decidable check that a byte string is a complete record encoding -/

/-- Fuel-indexed worker for `wfLog`; `fuel = b.length` suffices since every
record occupies at least 8 bytes. -/
def wfLogAux : Nat → Bytes → Bool
  | 0, b => b.isEmpty
  | fuel + 1, b =>
    if b.isEmpty then true
    else
      let l1 := decodeLE (b.take 4)
      if 4 + l1 + 4 ≤ b.length then
        let l2 := decodeLE ((b.drop (4 + l1)).take 4)
        if 4 + l1 + 4 + l2 ≤ b.length then
          wfLogAux fuel (b.drop (4 + l1 + 4 + l2))
        else false
      else false

/-- `b` parses as a (possibly empty) sequence of complete records. -/
def wfLog (b : Bytes) : Bool := wfLogAux b.length b

/-! ### Counter-log lemmas -/

theorem counterRecs_length (t : Nat) : (counterRecs t).length = t := by
  simp [counterRecs]

theorem counterRecs_succ (t : Nat) :
    counterRecs (t + 1)
      = counterRecs t ++ [(counterKey, FileStore.natDecimal (t + 1))] := by
  unfold counterRecs
  rw [List.range_succ, List.map_append]
  simp

theorem WFRecs_counterRecs (t : Nat) (h : t < 2 ^ 63) :
    WFRecs (counterRecs t) := by
  intro r hr
  unfold counterRecs at hr
  obtain ⟨j, hj, hr⟩ := List.mem_map.mp hr
  have hjt : j < t := List.mem_range.mp hj
  subst hr
  constructor
  · unfold WFStr counterKey
    simp
  · exact FileStore.WFStr_natDecimal (j + 1) (by omega)

/-- Decomposition of the counter log past an earlier cut `k`: the suffix ends
with the record for value `t`. -/
theorem counterRecs_decomp (k t : Nat) (hk : k ≤ t) :
    ∃ suf, counterRecs t = counterRecs k ++ suf ∧
      (k < t → lastValue suf counterKey
        = some (FileStore.natDecimal t)) := by
  induction t with
  | zero =>
    have hk0 : k = 0 := Nat.le_zero.mp hk
    subst hk0
    exact ⟨[], by simp [counterRecs], by omega⟩
  | succ t ih =>
    by_cases hkt : k = t + 1
    · subst hkt
      exact ⟨[], by simp, by omega⟩
    · have hk' : k ≤ t := by omega
      obtain ⟨suf, hsuf, _⟩ := ih hk'
      refine ⟨suf ++ [(counterKey, FileStore.natDecimal (t + 1))], ?_, ?_⟩
      · rw [counterRecs_succ, hsuf, List.append_assoc]
      · intro _
        rw [lastValue_append_last]
        simp

theorem counterRecs_take (k t : Nat) (hk : k ≤ t) :
    (counterRecs t).take k = counterRecs k := by
  obtain ⟨suf, hsuf, _⟩ := counterRecs_decomp k t hk
  rw [hsuf, List.take_append_of_le_length (by rw [counterRecs_length]),
    List.take_of_length_le (by rw [counterRecs_length])]

theorem encRecs_counter_lt (k t : Nat) (hk : k < t) :
    (encodeRecords (counterRecs k)).length
      < (encodeRecords (counterRecs t)).length := by
  obtain ⟨suf, hsuf, _⟩ := counterRecs_decomp k t (by omega)
  rw [hsuf]
  apply length_encodeRecords_lt
  intro hnil
  subst hnil
  have h1 := counterRecs_length t
  have h2 := counterRecs_length k
  rw [hsuf] at h1
  simp at h1
  omega

/-! ### The refresh protocol at the record level, per operation -/

/-- `get` on a log of records, from a record-aligned cursor, with the key not
yet cached but present among the remaining records: one refresh replays the
tail of the log and the last record for the key wins. -/
theorem get_refresh (recs : List (Bytes × Bytes)) (j : Nat) (s : StoreState)
    (key v : Bytes) (hwf : WFRecs recs)
    (hpos : s.pos = (encodeRecords (recs.take j)).length)
    (hmiss : cacheLookup s.cache key = none)
    (hlast : lastValue (recs.drop j) key = some v) :
    FileStore.get (some (encodeRecords recs)) s key
      = GetOutcome.value v
          ⟨(encodeRecords recs).length, replayList s.cache (recs.drop j)⟩ := by
  have hsplit : encodeRecords recs
      = encodeRecords (recs.take j) ++ encodeRecords (recs.drop j) := by
    rw [← encodeRecords_append, List.take_append_drop]
  have hwfd := (WFRecs_take_drop recs hwf j).2
  have hdropne : recs.drop j ≠ [] := by
    intro hnil
    rw [hnil] at hlast
    exact Option.noConfusion hlast
  have hlt : s.pos < (encodeRecords recs).length := by
    have hlen := length_encodeRecords_lt (recs.take j) (recs.drop j) hdropne
    rw [List.take_append_drop] at hlen
    rw [hpos]
    exact hlen
  have hreplay : replayLoop (encodeRecords recs) s.pos s.cache
      = ((encodeRecords recs).length, replayList s.cache (recs.drop j)) := by
    rw [hpos]
    conv in replayLoop _ _ _ => rw [hsplit]
    rw [replayLoop_enc (recs.take j) (recs.drop j) s.cache hwfd, ← hsplit]
  have hlook : cacheLookup (replayList s.cache (recs.drop j)) key = some v := by
    rw [cacheLookup_replayList, hlast]
  unfold FileStore.get
  rw [hmiss]
  simp only []
  rw [if_neg (by omega), hreplay]
  simp only [hlook]

/-- `add` on a record-aligned cursor strictly before end-of-file: the refresh
runs, leaving the descriptor at end-of-file, so the new record is appended;
the value is computed from the fully replayed cache. -/
theorem add_refresh (recs : List (Bytes × Bytes)) (j : Nat) (s : StoreState)
    (key : Bytes) (i : Int) (hwf : WFRecs recs)
    (hpos : s.pos = (encodeRecords (recs.take j)).length)
    (hne : recs.drop j ≠ []) :
    FileStore.add (some (encodeRecords recs)) s key i
      = (FileStore.wrap64 (FileStore.streamParseInt64
            (mapSubscript (replayList s.cache (recs.drop j)) key).1 + i),
         encodeRecords recs ++ encRecord (key,
           FileStore.int64Decimal (FileStore.wrap64 (FileStore.streamParseInt64
             (mapSubscript (replayList s.cache (recs.drop j)) key).1 + i))),
         ⟨(encodeRecords recs).length,
          (mapSubscript (replayList s.cache (recs.drop j)) key).2⟩) := by
  have hsplit : encodeRecords recs
      = encodeRecords (recs.take j) ++ encodeRecords (recs.drop j) := by
    rw [← encodeRecords_append, List.take_append_drop]
  have hwfd := (WFRecs_take_drop recs hwf j).2
  have hlt : s.pos < (encodeRecords recs).length := by
    have hlen := length_encodeRecords_lt (recs.take j) (recs.drop j) hne
    rw [List.take_append_drop] at hlen
    rw [hpos]
    exact hlen
  have hreplay : replayLoop (encodeRecords recs) s.pos s.cache
      = ((encodeRecords recs).length, replayList s.cache (recs.drop j)) := by
    rw [hpos]
    conv in replayLoop _ _ _ => rw [hsplit]
    rw [replayLoop_enc (recs.take j) (recs.drop j) s.cache hwfd, ← hsplit]
  have hgt : (encodeRecords recs).length > s.pos := hlt
  unfold FileStore.add
  simp only [Option.getD_some]
  rw [if_pos hgt, hreplay]
  simp only []
  rw [writeRecord_at_end]

/-- `add` when the size check says the cache is current (`size ≤ pos_`): no
refresh runs, the descriptor offset is still 0, and the two `writeString`
calls land at the start of the file. -/
theorem add_no_refresh (c : Bytes) (s : StoreState) (key : Bytes) (i : Int)
    (hge : ¬ c.length > s.pos) :
    FileStore.add (some c) s key i
      = (FileStore.wrap64 (FileStore.streamParseInt64
            (mapSubscript s.cache key).1 + i),
         (fileWriteString (fileWriteString ⟨c, 0⟩ key)
           (FileStore.int64Decimal (FileStore.wrap64 (FileStore.streamParseInt64
             (mapSubscript s.cache key).1 + i)))).contents,
         ⟨s.pos, (mapSubscript s.cache key).2⟩) := by
  unfold FileStore.add
  simp only [Option.getD_some]
  rw [if_neg hge]

/-- `FileStore::set` always appends exactly one encoded record at the end of
the (possibly just created) file and leaves the instance state untouched. -/
theorem set_run (log : Option Bytes) (s : StoreState) (name data : Bytes) :
    FileStore.set log s name data
      = ((log.getD []) ++ encRecord (name, data), s) := by
  unfold FileStore.set
  simp only []
  rw [writeRecord_at_end]

/-- One step of the counter hammer: if the file holds the first `t` counter
records and the instance's cursor sits at some earlier record boundary (or
the instance is fresh with an empty file), `add("counter", 1)` returns `t+1`,
appends the record for `t+1`, and leaves the cursor at a boundary before the
new end. -/
theorem counter_add_step (t : Nat) (s : StoreState) (hb : t + 1 < 2 ^ 63)
    (hinv : (s = initStore ∧ t = 0) ∨
      ∃ k, k < t ∧ s.pos = (encodeRecords (counterRecs k)).length) :
    (FileStore.add (some (encodeRecords (counterRecs t))) s counterKey 1).1
        = (t : Int) + 1 ∧
    (FileStore.add (some (encodeRecords (counterRecs t))) s counterKey 1).2.1
        = encodeRecords (counterRecs (t + 1)) ∧
    ∃ q, q < t + 1 ∧
      (FileStore.add (some (encodeRecords (counterRecs t))) s counterKey 1).2.2.pos
        = (encodeRecords (counterRecs q)).length := by
  rcases hinv with ⟨hs, ht⟩ | ⟨k, hk, hpos⟩
  · subst hs
    subst ht
    refine ⟨by decide, by decide, 0, by omega, by decide⟩
  · have hwf := WFRecs_counterRecs t (by omega)
    have htake : (counterRecs t).take k = counterRecs k :=
      counterRecs_take k t (by omega)
    obtain ⟨suf, hsuf, hlast⟩ := counterRecs_decomp k t (by omega)
    have hdrop : (counterRecs t).drop k = suf := by
      rw [hsuf]
      have hdl := List.drop_left (counterRecs k) suf
      rwa [counterRecs_length] at hdl
    have hne : (counterRecs t).drop k ≠ [] := by
      rw [hdrop]
      intro hnil
      subst hnil
      have h1 := counterRecs_length t
      rw [hsuf, List.append_nil, counterRecs_length] at h1
      omega
    have hstep := add_refresh (counterRecs t) k s counterKey 1 hwf
      (by rw [hpos, htake]) hne
    have hlook : cacheLookup (replayList s.cache ((counterRecs t).drop k))
        counterKey = some (FileStore.natDecimal t) := by
      rw [cacheLookup_replayList, hdrop, hlast hk]
    have hsub : mapSubscript (replayList s.cache ((counterRecs t).drop k))
        counterKey = (FileStore.natDecimal t,
          replayList s.cache ((counterRecs t).drop k)) := by
      unfold mapSubscript
      rw [hlook]
    have hparse : FileStore.streamParseInt64 (FileStore.natDecimal t)
        = (t : Int) := FileStore.streamParseInt64_natDecimal t (by omega)
    have hwrap : FileStore.wrap64 ((t : Int) + 1) = (t : Int) + 1 := by
      apply FileStore.wrap64_small
      · omega
      · have : ((t : Int) + 1) = ((t + 1 : Nat) : Int) := by push_cast; ring
        rw [this]
        exact_mod_cast hb
    have hdec : FileStore.int64Decimal ((t : Int) + 1)
        = FileStore.natDecimal (t + 1) := by
      have hc : ((t : Int) + 1) = ((t + 1 : Nat) : Int) := by push_cast; ring
      rw [hc, FileStore.int64Decimal_ofNat]
    rw [hstep, hsub]
    simp only [hparse, hwrap, hdec]
    refine ⟨?_, ?_, t, by omega, ?_⟩
    · exact trivial
    · rw [counterRecs_succ, encodeRecords_append]
      simp [encodeRecords]
    · exact rfl

/-- Invariant maintained by the hammer schedule: the file holds exactly the
first `t` counter records and every instance is either fresh or has its
cursor at some strictly earlier record boundary. -/
def CounterInv (N t : Nat) (acc : Bytes × (Fin N → StoreState)) : Prop :=
  acc.1 = encodeRecords (counterRecs t) ∧
  ∀ idx : Fin N, (acc.2 idx = initStore ∧ t = 0) ∨
    ∃ k, k < t ∧ (acc.2 idx).pos = (encodeRecords (counterRecs k)).length

theorem counterInv_start (N : Nat) :
    CounterInv N 0 ([], fun _ => initStore) := by
  constructor
  · simp [counterRecs, encodeRecords]
  · intro idx
    exact Or.inl ⟨rfl, rfl⟩

theorem counterInv_step (N t : Nat) (acc : Bytes × (Fin N → StoreState))
    (i : Fin N) (hb : t + 1 < 2 ^ 63) (hinv : CounterInv N t acc) :
    CounterInv N (t + 1) (addStep N acc i) := by
  obtain ⟨hlog, hsts⟩ := hinv
  have hstep := counter_add_step t (acc.2 i) hb (hsts i)
  obtain ⟨hval, hlog', hq, hqlt, hqpos⟩ := hstep
  constructor
  · show (FileStore.add (some acc.1) (acc.2 i) counterKey 1).2.1 = _
    rw [hlog]
    exact hlog'
  · intro idx
    by_cases hidx : idx = i
    · subst hidx
      refine Or.inr ⟨hq, hqlt, ?_⟩
      show (Function.update acc.2 idx
        (FileStore.add (some acc.1) (acc.2 idx) counterKey 1).2.2 idx).pos = _
      rw [Function.update_same, hlog]
      exact hqpos
    · rcases hsts idx with ⟨hinit, ht0⟩ | ⟨k, hklt, hkpos⟩
      · refine Or.inr ⟨0, by omega, ?_⟩
        show (Function.update acc.2 i _ idx).pos = _
        rw [Function.update_noteq hidx, hinit]
        simp [initStore, counterRecs, encodeRecords]
      · refine Or.inr ⟨k, by omega, ?_⟩
        show (Function.update acc.2 i _ idx).pos = _
        rw [Function.update_noteq hidx]
        exact hkpos

theorem counterInv_fold (N : Nat) (sched : List (Fin N)) :
    ∀ (t : Nat) (acc : Bytes × (Fin N → StoreState)),
    t + sched.length < 2 ^ 63 → CounterInv N t acc →
    CounterInv N (t + sched.length) (sched.foldl (addStep N) acc) := by
  induction sched with
  | nil => intro t acc _ h; simpa using h
  | cons i rest ih =>
    intro t acc hbound hinv
    have h1 : CounterInv N (t + 1) (addStep N acc i) :=
      counterInv_step N t acc i (by simp at hbound; omega) hinv
    have h2 := ih (t + 1) (addStep N acc i) (by simp at hbound ⊢; omega) h1
    simp only [List.foldl_cons, List.length_cons]
    have : t + (rest.length + 1) = (t + 1) + rest.length := by omega
    rw [this]
    exact h2

/-- The length of a list over `Fin N` is the sum of its element counts. -/
theorem length_eq_sum_count (N : Nat) (l : List (Fin N)) :
    l.length = ∑ i : Fin N, l.count i := by
  induction l with
  | nil => simp
  | cons a t ih =>
    simp only [List.length_cons, List.count_cons, beq_iff_eq, ih]
    rw [Finset.sum_add_distrib]
    have h1 : (∑ x : Fin N, if a = x then 1 else 0) = 1 := by
      simp
    rw [h1]

/-! ### Claim C4 -/

/-- Claim C4: with `N` concurrent instances each calling `add("counter", 1)`
`M` times against the same (initially empty) file and no other writers, every
interleaving — i.e. every schedule in which each instance appears `M` times,
since the exclusive `flock` makes each `add`'s read-modify-append atomic —
leaves the log holding the records `1, 2, ..., N*M`, the latest record for
`"counter"` is the decimal text of `N*M`, and a fresh instance's `get`
returns it: no increment is lost. -/
theorem concurrent_adds_no_lost_update (N M : Nat) (sched : List (Fin N))
    (hN : 0 < N) (hM : 0 < M)
    (hcount : ∀ i : Fin N, sched.count i = M)
    (hbound : N * M < 2 ^ 63) :
    (runSchedule N sched).1 = encodeRecords (counterRecs (N * M)) ∧
    lastValue (counterRecs (N * M)) counterKey
      = some (FileStore.natDecimal (N * M)) ∧
    ∃ s1, FileStore.get (some (runSchedule N sched).1) initStore counterKey
        = GetOutcome.value (FileStore.natDecimal (N * M)) s1 := by
  have hlen : sched.length = N * M := by
    rw [length_eq_sum_count]
    calc (∑ i : Fin N, sched.count i) = ∑ _i : Fin N, M := by
          apply Finset.sum_congr rfl
          intro i _
          exact hcount i
      _ = N * M := by
          rw [Finset.sum_const, Finset.card_univ, Fintype.card_fin]
          simp [Nat.smul_one_eq_cast]
  have hfold := counterInv_fold N sched 0 ([], fun _ => initStore)
    (by omega) (counterInv_start N)
  have hlog : (runSchedule N sched).1 = encodeRecords (counterRecs (N * M)) := by
    have := hfold.1
    unfold runSchedule
    rw [← hlen]
    simpa using this
  have hT : 0 < N * M := Nat.mul_pos hN hM
  have hlast : lastValue (counterRecs (N * M)) counterKey
      = some (FileStore.natDecimal (N * M)) := by
    obtain ⟨suf, hsuf, hl⟩ := counterRecs_decomp 0 (N * M) (by omega)
    have h0 : counterRecs 0 = [] := by simp [counterRecs]
    rw [h0, List.nil_append] at hsuf
    rw [hsuf]
    exact hl hT
  refine ⟨hlog, hlast, ?_⟩
  refine ⟨⟨(encodeRecords (counterRecs (N * M))).length,
    replayList initStore.cache ((counterRecs (N * M)).drop 0)⟩, ?_⟩
  rw [hlog]
  apply get_refresh (counterRecs (N * M)) 0 initStore counterKey
    (FileStore.natDecimal (N * M))
    (WFRecs_counterRecs (N * M) (by omega))
  · simp [initStore, encodeRecords]
  · rfl
  · rw [List.drop_zero]
    exact hlast

/-- Concrete instance of C4: two instances, one increment each, schedule
`[0, 1]`; the final read of `"counter"` is the decimal text of 2. -/
theorem concurrent_adds_no_lost_update_witness :
    (0 < 2 ∧ 0 < 1 ∧ (∀ i : Fin 2, ([0, 1] : List (Fin 2)).count i = 1) ∧
      2 * 1 < 2 ^ 63) ∧
    ∃ s1, FileStore.get (some (runSchedule 2 [0, 1]).1) initStore counterKey
        = GetOutcome.value (FileStore.natDecimal (2 * 1)) s1 :=
  ⟨⟨by decide, by decide, by decide, by decide⟩,
   (concurrent_adds_no_lost_update 2 1 [0, 1] (by decide) (by decide)
     (by decide) (by decide)).2.2⟩

theorem encodeRecords_singleton (r : Bytes × Bytes) :
    encodeRecords [r] = encRecord r := by
  simp [encodeRecords]

/-! ### Claims C5, C6, C8 -/

/-- Claim C5 (amended): after instance A performs `set(k, v)`, a subsequent
`get(k)` on A returns `v`, provided `k` is not already present in A's cache
(A's cursor at any record boundary of the prior log).  The original claim
over *every* prior cache state fails: a cached stale value is returned
unchanged, see the counterexample. -/
theorem set_then_get_fresh_key (recs : List (Bytes × Bytes)) (j : Nat)
    (s : StoreState) (k v : Bytes)
    (hwf : WFRecs recs) (hk : WFStr k) (hv : WFStr v)
    (hj : j ≤ recs.length)
    (hpos : s.pos = (encodeRecords (recs.take j)).length)
    (hmiss : cacheLookup s.cache k = none) :
    ∃ s1, FileStore.get
        (some (FileStore.set (some (encodeRecords recs)) s k v).1)
        (FileStore.set (some (encodeRecords recs)) s k v).2 k
      = GetOutcome.value v s1 := by
  rw [set_run]
  simp only [Option.getD_some]
  have hlog : encodeRecords recs ++ encRecord (k, v)
      = encodeRecords (recs ++ [(k, v)]) := by
    rw [encodeRecords_append, encodeRecords_singleton]
  rw [hlog]
  have hwf' : WFRecs (recs ++ [(k, v)]) := by
    rw [WFRecs_append_iff]
    refine ⟨hwf, ?_⟩
    intro r hr
    simp at hr
    subst hr
    exact ⟨hk, hv⟩
  refine ⟨_, get_refresh (recs ++ [(k, v)]) j s k v hwf' ?_ hmiss ?_⟩
  · rw [List.take_append_of_le_length hj]
    exact hpos
  · rw [List.drop_append_of_le_length hj, lastValue_append_last]
    simp

/-- Counterexample to claim C5 as stated: instance A performs
`set("k", "a")`, `get("k")` (which caches `"a"`), then `set("k", "b")` —
and the next `get("k")` still returns `"a"`: the cache hit skips the refresh
entirely, so the write of `"b"` is invisible to A. -/
theorem stale_cache_shadows_set :
    (FileStore.set none initStore [107] [97]).1
      = [1, 0, 0, 0, 107, 1, 0, 0, 0, 97] ∧
    FileStore.get (some [1, 0, 0, 0, 107, 1, 0, 0, 0, 97]) initStore [107]
      = GetOutcome.value [97] ⟨10, [([107], [97])]⟩ ∧
    FileStore.get
        (some (FileStore.set (some [1, 0, 0, 0, 107, 1, 0, 0, 0, 97])
          ⟨10, [([107], [97])]⟩ [107] [98]).1)
        (FileStore.set (some [1, 0, 0, 0, 107, 1, 0, 0, 0, 97])
          ⟨10, [([107], [97])]⟩ [107] [98]).2 [107]
      = GetOutcome.value [97] ⟨10, [([107], [97])]⟩ ∧
    ([97] : Bytes) ≠ [98] := by decide

/-- Concrete instance of the amended C5: fresh instance, empty log. -/
theorem set_then_get_fresh_key_witness :
    (WFRecs ([] : List (Bytes × Bytes)) ∧ WFStr [107] ∧ WFStr [98] ∧
      (0 : Nat) ≤ ([] : List (Bytes × Bytes)).length ∧
      initStore.pos
        = (encodeRecords (([] : List (Bytes × Bytes)).take 0)).length ∧
      cacheLookup initStore.cache [107] = none) ∧
    ∃ s1, FileStore.get
        (some (FileStore.set (some (encodeRecords ([] : List (Bytes × Bytes))))
          initStore [107] [98]).1)
        (FileStore.set (some (encodeRecords ([] : List (Bytes × Bytes))))
          initStore [107] [98]).2 [107]
      = GetOutcome.value [98] s1 :=
  ⟨⟨by decide, by decide, by decide, by decide, by decide, by decide⟩,
   set_then_get_fresh_key [] 0 initStore [107] [98] (by decide) (by decide)
     (by decide) (by decide) (by decide) (by decide)⟩

/-- Claim C6 (amended): after `set(k, v1)` then `set(k, v2)` (any writer
instances, no intervening writes to `k`), every subsequent `get(k)` by an
instance that does not already hold `k` in its cache (cursor at a record
boundary not past the second write) returns `v2`: within the refresh replay
the later record overrides the earlier one.  The original claim over *every*
subsequent `get` fails for a reader that cached `v1` before the second
write, see the counterexample. -/
theorem last_write_wins_uncached_reader (recs : List (Bytes × Bytes)) (j : Nat)
    (sA sA2 sB : StoreState) (k v1 v2 : Bytes)
    (hwf : WFRecs recs) (hk : WFStr k) (hv1 : WFStr v1) (hv2 : WFStr v2)
    (hj : j ≤ recs.length + 1)
    (hpos : sB.pos = (encodeRecords ((recs ++ [(k, v1)]).take j)).length)
    (hmiss : cacheLookup sB.cache k = none) :
    ∃ s1, FileStore.get
        (some (FileStore.set
          (some (FileStore.set (some (encodeRecords recs)) sA k v1).1)
          sA2 k v2).1) sB k
      = GetOutcome.value v2 s1 := by
  rw [set_run, set_run]
  simp only [Option.getD_some]
  have hlog : encodeRecords recs ++ encRecord (k, v1) ++ encRecord (k, v2)
      = encodeRecords ((recs ++ [(k, v1)]) ++ [(k, v2)]) := by
    rw [encodeRecords_append, encodeRecords_append, encodeRecords_singleton,
      encodeRecords_singleton]
  rw [hlog]
  have hwf1 : WFRecs (recs ++ [(k, v1)]) := by
    rw [WFRecs_append_iff]
    refine ⟨hwf, ?_⟩
    intro r hr
    simp at hr
    subst hr
    exact ⟨hk, hv1⟩
  have hwf2 : WFRecs ((recs ++ [(k, v1)]) ++ [(k, v2)]) := by
    rw [WFRecs_append_iff]
    refine ⟨hwf1, ?_⟩
    intro r hr
    simp at hr
    subst hr
    exact ⟨hk, hv2⟩
  have hj1 : j ≤ (recs ++ [(k, v1)]).length := by
    simp only [List.length_append, List.length_cons, List.length_nil]
    omega
  refine ⟨_, get_refresh ((recs ++ [(k, v1)]) ++ [(k, v2)]) j sB k v2 hwf2 ?_
    hmiss ?_⟩
  · rw [List.take_append_of_le_length hj1]
    exact hpos
  · rw [List.drop_append_of_le_length hj1, lastValue_append_last]
    simp

/-- Counterexample to claim C6 as stated: writer sets `k := "1"`, reader B
caches it with `get`, writer sets `k := "2"`; B's next `get` still returns
`"1"` even though the log now ends with the `"2"` record. -/
theorem stale_cache_shadows_last_write :
    (FileStore.set none initStore [107] [49]).1
      = [1, 0, 0, 0, 107, 1, 0, 0, 0, 49] ∧
    FileStore.get (some [1, 0, 0, 0, 107, 1, 0, 0, 0, 49]) initStore [107]
      = GetOutcome.value [49] ⟨10, [([107], [49])]⟩ ∧
    (FileStore.set (some [1, 0, 0, 0, 107, 1, 0, 0, 0, 49]) initStore
        [107] [50]).1
      = [1, 0, 0, 0, 107, 1, 0, 0, 0, 49, 1, 0, 0, 0, 107, 1, 0, 0, 0, 50] ∧
    FileStore.get
        (some [1, 0, 0, 0, 107, 1, 0, 0, 0, 49, 1, 0, 0, 0, 107, 1, 0, 0, 0, 50])
        ⟨10, [([107], [49])]⟩ [107]
      = GetOutcome.value [49] ⟨10, [([107], [49])]⟩ ∧
    ([49] : Bytes) ≠ [50] := by decide

/-- Concrete instance of the amended C6: fresh reader, two writes on an
empty log. -/
theorem last_write_wins_uncached_reader_witness :
    (WFRecs ([] : List (Bytes × Bytes)) ∧ WFStr [107] ∧ WFStr [97] ∧
      WFStr [98] ∧ (0 : Nat) ≤ ([] : List (Bytes × Bytes)).length + 1 ∧
      initStore.pos = (encodeRecords
        ((([] : List (Bytes × Bytes)) ++ [([107], [97])]).take 0)).length ∧
      cacheLookup initStore.cache [107] = none) ∧
    ∃ s1, FileStore.get
        (some (FileStore.set
          (some (FileStore.set (some (encodeRecords ([] : List (Bytes × Bytes))))
            initStore [107] [97]).1)
          initStore [107] [98]).1) initStore [107]
      = GetOutcome.value [98] s1 :=
  ⟨⟨by decide, by decide, by decide, by decide, by decide, by decide, by decide⟩,
   last_write_wins_uncached_reader [] 0 initStore initStore initStore
     [107] [97] [98] (by decide) (by decide) (by decide) (by decide)
     (by decide) (by decide) (by decide)⟩

/-- Claim C8: `set(key, value)` leaves the instance's cache and read cursor
completely unchanged; the only effect is on the shared file, to which exactly
one encoded record is appended at the end (the file being created empty
first if it did not exist). -/
theorem set_frame_appends_record (log : Option Bytes) (s : StoreState)
    (k v : Bytes) :
    FileStore.set log s k v = ((log.getD []) ++ encRecord (k, v), s) :=
  set_run log s k v

instance {ε α : Type} [DecidableEq ε] [DecidableEq α] :
    DecidableEq (Except ε α) := fun a b =>
  match a, b with
  | Except.ok x, Except.ok y =>
    if h : x = y then Decidable.isTrue (h ▸ rfl)
    else Decidable.isFalse (fun hc => h (Except.ok.inj hc))
  | Except.error x, Except.error y =>
    if h : x = y then Decidable.isTrue (h ▸ rfl)
    else Decidable.isFalse (fun hc => h (Except.error.inj hc))
  | Except.ok _, Except.error _ =>
    Decidable.isFalse (fun hc => Except.noConfusion hc)
  | Except.error _, Except.ok _ =>
    Decidable.isFalse (fun hc => Except.noConfusion hc)

/-! ### Claims C1, C2, C3 -/

/-- Claim C1 finding: the timeout test inside `FileStore::wait` truncates the
elapsed time to whole seconds (`duration_cast<seconds>`) before comparing it
with the millisecond timeout, so `wait(keys, 100ms)` on keys that never
appear does not throw at ~100ms: at elapsed 100ms, 500ms and even 999ms the
test is still false, and it first fires once a full second has elapsed —
ten times the requested timeout. -/
theorem wait_timeout_truncated_to_seconds :
    FileStore.waitTimeoutExceeded (some 100) 100 = false ∧
    FileStore.waitTimeoutExceeded (some 100) 500 = false ∧
    FileStore.waitTimeoutExceeded (some 100) 999 = false ∧
    FileStore.waitTimeoutExceeded (some 100) 1000 = true ∧
    FileStore.waitTimeoutExceeded none 100000 = false := by decide

/-- Claim C2 finding: on the log `[k-record, value declared length 5 with
only 2 payload bytes "hi" present]` — a file truncated mid-record — `check`
succeeds returning `true`, `get` returns the zero-padded value
`"hi\x00\x00\x00"`, and `add` proceeds normally (parse failure yields 0, so
it returns 1): no operation fails, because `SYSCHECK` only inspects `errno`
and a short `read(2)` at end-of-file is a success with `errno = 0`. -/
theorem truncated_record_read_silently :
    FileStore.check (some [1, 0, 0, 0, 107, 5, 0, 0, 0, 104, 105]) initStore
        [[107]]
      = Except.ok (true, ⟨11, [([107], [104, 105, 0, 0, 0])]⟩) ∧
    FileStore.get (some [1, 0, 0, 0, 107, 5, 0, 0, 0, 104, 105]) initStore
        [107]
      = GetOutcome.value [104, 105, 0, 0, 0]
          ⟨11, [([107], [104, 105, 0, 0, 0])]⟩ ∧
    (FileStore.add (some [1, 0, 0, 0, 107, 5, 0, 0, 0, 104, 105]) initStore
        [107] 1).1 = 1 := by decide

/-- Claim C3 finding: in the reachable state where the cache is current —
`set("key", "value")` followed by `get("key")` leaves `pos = 16 = size` —
`add("c", 1)` runs no refresh, so the descriptor offset is still 0
(contradicting the code's own comment "File cursor is at the end of the file
now") and the new record is written over the first 10 bytes of the log
instead of being appended: the file still has 16 bytes, not 16 + 10. -/
theorem add_overwrites_log_head :
    (FileStore.set none initStore [107, 101, 121] [118, 97, 108, 117, 101]).1
      = [3, 0, 0, 0, 107, 101, 121, 5, 0, 0, 0, 118, 97, 108, 117, 101] ∧
    FileStore.get
        (some [3, 0, 0, 0, 107, 101, 121, 5, 0, 0, 0, 118, 97, 108, 117, 101])
        initStore [107, 101, 121]
      = GetOutcome.value [118, 97, 108, 117, 101]
          ⟨16, [([107, 101, 121], [118, 97, 108, 117, 101])]⟩ ∧
    (FileStore.add
        (some [3, 0, 0, 0, 107, 101, 121, 5, 0, 0, 0, 118, 97, 108, 117, 101])
        ⟨16, [([107, 101, 121], [118, 97, 108, 117, 101])]⟩ [99] 1).2.1
      = [1, 0, 0, 0, 99, 1, 0, 0, 0, 49, 0, 118, 97, 108, 117, 101] ∧
    (FileStore.add
        (some [3, 0, 0, 0, 107, 101, 121, 5, 0, 0, 0, 118, 97, 108, 117, 101])
        ⟨16, [([107, 101, 121], [118, 97, 108, 117, 101])]⟩ [99] 1).2.1
      ≠ [3, 0, 0, 0, 107, 101, 121, 5, 0, 0, 0, 118, 97, 108, 117, 101]
          ++ encRecord ([99], [49]) := by decide

/-! ### Claims C9, C10 -/

theorem get_cache_hit (lg : Option Bytes) (s : StoreState) (key v : Bytes)
    (h : cacheLookup s.cache key = some v) :
    FileStore.get lg s key = GetOutcome.value v s := by
  unfold FileStore.get
  rw [h]

/-- Claim C9: when `add(k, delta)` runs with `k` absent both from the local
cache and from the not-yet-replayed part of the log, the `cache_[key]`
subscript leaves `k` mapped to the empty string; the computed value is not
stored locally and the cursor stops at the pre-write end of the log (strictly
before the record `add` itself wrote, in the appending cases); consequently an
immediately following `get(k)` on the same instance is a cache hit that
returns the empty string — not the decimal text of the new counter value —
without touching the file at all (any file contents `lg`). -/
theorem add_unseen_key_caches_empty (recs : List (Bytes × Bytes)) (j : Nat)
    (s : StoreState) (k : Bytes) (d : Int)
    (hwf : WFRecs recs) (hj : j ≤ recs.length)
    (hpos : s.pos = (encodeRecords (recs.take j)).length)
    (hmiss : cacheLookup s.cache k = none)
    (hnew : ∀ r ∈ recs.drop j, r.1 ≠ k) :
    cacheLookup (FileStore.add (some (encodeRecords recs)) s k d).2.2.cache k
      = some [] ∧
    (FileStore.add (some (encodeRecords recs)) s k d).2.2.pos
      = (encodeRecords recs).length ∧
    ((j < recs.length ∨ recs = []) →
      (FileStore.add (some (encodeRecords recs)) s k d).2.2.pos
        < (FileStore.add (some (encodeRecords recs)) s k d).2.1.length) ∧
    (∀ lg, FileStore.get lg (FileStore.add (some (encodeRecords recs)) s k d).2.2 k
      = GetOutcome.value [] (FileStore.add (some (encodeRecords recs)) s k d).2.2) := by
  by_cases hcase : j < recs.length
  · have hne : recs.drop j ≠ [] := by
      intro hnil
      have := List.length_drop j recs
      rw [hnil] at this
      simp at this
      omega
    have hstep := add_refresh recs j s k d hwf hpos hne
    have hlookrep : cacheLookup (replayList s.cache (recs.drop j)) k = none := by
      rw [cacheLookup_replayList, lastValue_eq_none (recs.drop j) k hnew]
      exact hmiss
    have hsub : mapSubscript (replayList s.cache (recs.drop j)) k
        = ([], cacheInsert (replayList s.cache (recs.drop j)) k []) := by
      unfold mapSubscript
      rw [hlookrep]
    rw [hstep, hsub]
    simp only []
    have hlookup : cacheLookup
        (cacheInsert (replayList s.cache (recs.drop j)) k []) k = some [] :=
      cacheLookup_insert_self _ k []
    refine ⟨hlookup, trivial, ?_, ?_⟩
    · intro _
      simp only [List.length_append]
      have := length_encRecord_pos (k, FileStore.int64Decimal
        (FileStore.wrap64 (FileStore.streamParseInt64 ([] : Bytes) + d)))
      omega
    · intro lg
      exact get_cache_hit lg _ k [] hlookup
  · have hj' : j = recs.length := by omega
    have htake : recs.take j = recs := List.take_of_length_le (by omega)
    have hposfull : s.pos = (encodeRecords recs).length := by
      rw [hpos, htake]
    have hnotgt : ¬ (encodeRecords recs).length > s.pos := by omega
    have hstep := add_no_refresh (encodeRecords recs) s k d hnotgt
    have hsub : mapSubscript s.cache k = ([], cacheInsert s.cache k []) := by
      unfold mapSubscript
      rw [hmiss]
    rw [hstep, hsub]
    simp only []
    have hlookup : cacheLookup (cacheInsert s.cache k []) k = some [] :=
      cacheLookup_insert_self _ k []
    refine ⟨hlookup, hposfull, ?_, ?_⟩
    · intro hd
      rcases hd with hlt | hnil
      · omega
      · subst hnil
        have hz : (encodeRecords ([] : List (Bytes × Bytes))).length = 0 := by
          simp [encodeRecords]
        rw [hposfull, hz]
        have hc0 : (⟨encodeRecords [], 0⟩ : FileState)
            = ⟨encodeRecords [], (encodeRecords ([] : List (Bytes × Bytes))).length⟩ := by
          rw [hz]
        rw [hc0, writeRecord_at_end]
        simp only [List.length_append]
        have := length_encRecord_pos (k, FileStore.int64Decimal
          (FileStore.wrap64 (FileStore.streamParseInt64 ([] : Bytes) + d)))
        omega
    · intro lg
      exact get_cache_hit lg _ k [] hlookup

/-- Concrete instance of C9: `add("k", 5)` on a fresh instance whose log
holds one record for a different key; the following `get("k")` returns the
empty string. -/
theorem add_unseen_key_caches_empty_witness :
    (WFRecs [([97], [98])] ∧ (0 : Nat) ≤ [([97], [98])].length ∧
      initStore.pos
        = (encodeRecords ([([97], [98])].take 0)).length ∧
      cacheLookup initStore.cache [107] = none ∧
      (∀ r ∈ [([97], [98])].drop 0, r.1 ≠ [107])) ∧
    (∀ lg, FileStore.get lg
        (FileStore.add (some (encodeRecords [([97], [98])])) initStore [107] 5).2.2
        [107]
      = GetOutcome.value []
          (FileStore.add (some (encodeRecords [([97], [98])])) initStore [107] 5).2.2) :=
  ⟨⟨by decide, by decide, by decide, by decide, by decide⟩,
   (add_unseen_key_caches_empty [([97], [98])] 0 initStore [107] 5 (by decide)
     (by decide) (by decide) (by decide) (by decide)).2.2.2⟩

/-- Claim C10: when the file does not exist at the store's path, `get` on an
uncached key and `check` on any key list fail immediately with the I/O error
from the read-only `open` (no blocking, no `false` result), while `set` and
`add` create the file and write their record into it. -/
theorem missing_file_errors (s : StoreState) (k : Bytes)
    (hmiss : cacheLookup s.cache k = none) :
    FileStore.get none s k = GetOutcome.ioError ∧
    (∀ (s1 : StoreState) (keys : List Bytes),
      FileStore.check none s1 keys = Except.error ()) ∧
    (∀ (s1 : StoreState) (k1 v1 : Bytes),
      (FileStore.set none s1 k1 v1).1 = encRecord (k1, v1)) ∧
    (∀ (s1 : StoreState) (k1 : Bytes) (d : Int),
      (FileStore.add none s1 k1 d).2.1
        = encRecord (k1,
            FileStore.int64Decimal (FileStore.add none s1 k1 d).1)) := by
  refine ⟨?_, ?_, ?_, ?_⟩
  · unfold FileStore.get
    rw [hmiss]
  · intro s1 keys
    rfl
  · intro s1 k1 v1
    rw [set_run]
    simp
  · intro s1 k1 d
    have hnone : FileStore.add none s1 k1 d
        = FileStore.add (some []) s1 k1 d := rfl
    rw [hnone, add_no_refresh [] s1 k1 d (by simp)]
    have hc0 : (⟨[], 0⟩ : FileState) = ⟨[], ([] : Bytes).length⟩ := rfl
    rw [hc0, writeRecord_at_end]
    simp

/-- Concrete instance of C10: missing file, fresh instance, key "k". -/
theorem missing_file_errors_witness :
    cacheLookup initStore.cache [107] = none ∧
    FileStore.get none initStore [107] = GetOutcome.ioError :=
  ⟨by decide, (missing_file_errors initStore [107] (by decide)).1⟩

/-! ### Cursor invariants: helpers -/

theorem replayLoop_pos_ge (c : Bytes) (pos : Nat)
    (cache : List (Bytes × Bytes)) : pos ≤ (replayLoop c pos cache).1 :=
  replayAux_ge _ _ _ _

theorem replayLoop_pos_le (c : Bytes) (pos : Nat)
    (cache : List (Bytes × Bytes)) (h : pos ≤ c.length) :
    (replayLoop c pos cache).1 ≤ c.length :=
  replayAux_le _ _ _ _ h

theorem get_post_state (lg : Option Bytes) (s : StoreState) (k : Bytes) :
    (FileStore.get lg s k).stateD s = s ∨
    ∃ c, lg = some c ∧
      (FileStore.get lg s k).stateD s
        = ⟨(replayLoop c s.pos s.cache).1, (replayLoop c s.pos s.cache).2⟩ := by
  cases hlook : cacheLookup s.cache k with
  | some v =>
    left
    unfold FileStore.get
    rw [hlook]
    rfl
  | none =>
    cases lg with
    | none =>
      left
      unfold FileStore.get
      rw [hlook]
      rfl
    | some c =>
      by_cases hc : c.length = s.pos
      · left
        unfold FileStore.get
        rw [hlook]
        simp only [if_pos hc]
        rfl
      · right
        refine ⟨c, rfl, ?_⟩
        unfold FileStore.get
        rw [hlook]
        simp only [if_neg hc]
        cases hlook2 : cacheLookup (replayLoop c s.pos s.cache).2 k with
        | some v => rfl
        | none => rfl

theorem check_post_state (lg : Option Bytes) (s : StoreState)
    (keys : List Bytes) :
    checkStateD (FileStore.check lg s keys) s = s ∨
    ∃ c, lg = some c ∧
      checkStateD (FileStore.check lg s keys) s
        = ⟨(replayLoop c s.pos s.cache).1, (replayLoop c s.pos s.cache).2⟩ := by
  cases lg with
  | none => left; rfl
  | some c =>
    by_cases hc : c.length = s.pos
    · left
      unfold FileStore.check
      simp only [if_pos hc]
      rfl
    · right
      refine ⟨c, rfl, ?_⟩
      unfold FileStore.check
      simp only [if_neg hc]
      rfl

theorem check_pos_mono (lg : Option Bytes) (s : StoreState) (keys : List Bytes) :
    s.pos ≤ (checkStateD (FileStore.check lg s keys) s).pos := by
  rcases check_post_state lg s keys with h | ⟨c, _, h⟩
  · rw [h]
  · rw [h]
    exact replayLoop_pos_ge c s.pos s.cache

theorem check_pos_le (lg : Option Bytes) (s : StoreState) (keys : List Bytes)
    (hle : s.pos ≤ optLen lg) :
    (checkStateD (FileStore.check lg s keys) s).pos ≤ optLen lg := by
  rcases check_post_state lg s keys with h | ⟨c, hc, h⟩
  · rw [h]
    exact hle
  · rw [h, hc]
    subst hc
    exact replayLoop_pos_le c s.pos s.cache hle

theorem checkStateD_ok (lg : Option Bytes) (s s1 : StoreState)
    (keys : List Bytes) (b : Bool)
    (h : FileStore.check lg s keys = Except.ok (b, s1)) :
    checkStateD (FileStore.check lg s keys) s = s1 := by
  rw [h]
  rfl

theorem waitChecks_pos_mono (logs : List (Option Bytes)) :
    ∀ (s : StoreState) (keys : List Bytes),
    s.pos ≤ (FileStore.waitChecks logs s keys).pos := by
  induction logs with
  | nil => intro s keys; exact Nat.le_refl _
  | cons lg rest ih =>
    intro s keys
    unfold FileStore.waitChecks
    cases hch : FileStore.check lg s keys with
    | error e => exact Nat.le_refl _
    | ok p =>
      obtain ⟨b, s1⟩ := p
      have hmono : s.pos ≤ s1.pos := by
        have := check_pos_mono lg s keys
        rw [checkStateD_ok lg s s1 keys b hch] at this
        exact this
      cases b with
      | true => exact hmono
      | false => exact le_trans hmono (ih s1 keys)

/-- Record-boundary positions survive appending further records. -/
theorem isBoundary_append_take (recs extra : List (Bytes × Bytes)) (j : Nat)
    (hwf : WFRecs recs) :
    IsRecordBoundary (encodeRecords (recs ++ extra))
      (encodeRecords (recs.take j)).length := by
  by_cases hj : j ≤ recs.length
  · refine ⟨recs.take j, (WFRecs_take_drop recs hwf j).1, ?_⟩
    have hsplit : encodeRecords (recs ++ extra)
        = encodeRecords (recs.take j)
            ++ encodeRecords (recs.drop j ++ extra) := by
      rw [← encodeRecords_append, ← List.append_assoc, List.take_append_drop]
    rw [hsplit, List.take_left]
  · have htake : recs.take j = recs := List.take_of_length_le (by omega)
    rw [htake]
    refine ⟨recs, hwf, ?_⟩
    rw [encodeRecords_append, List.take_left]

theorem isBoundary_take (recs : List (Bytes × Bytes)) (j : Nat)
    (hwf : WFRecs recs) :
    IsRecordBoundary (encodeRecords recs)
      (encodeRecords (recs.take j)).length := by
  have h := isBoundary_append_take recs [] j hwf
  rwa [List.append_nil] at h

/-- The refresh loop from a record boundary always stops exactly at
end-of-file with the suffix replayed. -/
theorem replayLoop_from_boundary (recs : List (Bytes × Bytes)) (j : Nat)
    (cache : List (Bytes × Bytes)) (hwf : WFRecs recs) :
    replayLoop (encodeRecords recs) (encodeRecords (recs.take j)).length cache
      = ((encodeRecords recs).length, replayList cache (recs.drop j)) := by
  have hsplit : encodeRecords recs
      = encodeRecords (recs.take j) ++ encodeRecords (recs.drop j) := by
    rw [← encodeRecords_append, List.take_append_drop]
  have hwfd := (WFRecs_take_drop recs hwf j).2
  conv in replayLoop _ _ _ => rw [hsplit]
  rw [replayLoop_enc (recs.take j) (recs.drop j) cache hwfd, ← hsplit]

theorem get_pos_mono (lg : Option Bytes) (s : StoreState) (k : Bytes) :
    s.pos ≤ ((FileStore.get lg s k).stateD s).pos := by
  rcases get_post_state lg s k with h | ⟨c, _, h⟩
  · rw [h]
  · rw [h]
    exact replayLoop_pos_ge c s.pos s.cache

theorem get_pos_le (lg : Option Bytes) (s : StoreState) (k : Bytes)
    (hle : s.pos ≤ optLen lg) :
    ((FileStore.get lg s k).stateD s).pos ≤ optLen lg := by
  rcases get_post_state lg s k with h | ⟨c, hc, h⟩
  · rw [h]
    exact hle
  · rw [h, hc]
    subst hc
    exact replayLoop_pos_le c s.pos s.cache hle

theorem length_overwriteAt_ge (c d : Bytes) (off : Nat) :
    c.length ≤ (overwriteAt c off d).length := by
  rw [length_overwriteAt]
  omega

/-- `add`: the new cursor is either unchanged or the refresh-loop result, and
the file never shrinks. -/
theorem add_post (lg : Option Bytes) (s : StoreState) (k : Bytes) (d : Int) :
    ((FileStore.add lg s k d).2.2.pos = s.pos ∨
      (FileStore.add lg s k d).2.2.pos
        = (replayLoop (lg.getD []) s.pos s.cache).1) ∧
    (lg.getD []).length ≤ (FileStore.add lg s k d).2.1.length := by
  unfold FileStore.add
  by_cases hif : (lg.getD []).length > s.pos
  · simp only [if_pos hif, fileWriteString, fileWrite]
    refine ⟨Or.inr trivial, ?_⟩
    calc (lg.getD []).length
        ≤ (overwriteAt (lg.getD [])
            (replayLoop (lg.getD []) s.pos s.cache).1 (encStr k)).length :=
          length_overwriteAt_ge _ _ _
      _ ≤ _ := length_overwriteAt_ge _ _ _
  · simp only [if_neg hif, fileWriteString, fileWrite]
    refine ⟨Or.inl trivial, ?_⟩
    calc (lg.getD []).length
        ≤ (overwriteAt (lg.getD []) 0 (encStr k)).length :=
          length_overwriteAt_ge _ _ _
      _ ≤ _ := length_overwriteAt_ge _ _ _

theorem add_pos_mono (lg : Option Bytes) (s : StoreState) (k : Bytes)
    (d : Int) : s.pos ≤ (FileStore.add lg s k d).2.2.pos := by
  rcases (add_post lg s k d).1 with h | h
  · rw [h]
  · rw [h]
    exact replayLoop_pos_ge _ s.pos s.cache

theorem add_pos_le (lg : Option Bytes) (s : StoreState) (k : Bytes) (d : Int)
    (hle : s.pos ≤ optLen lg) :
    (FileStore.add lg s k d).2.2.pos ≤ (FileStore.add lg s k d).2.1.length := by
  have hbound := (add_post lg s k d).2
  rcases (add_post lg s k d).1 with h | h
  · rw [h]
    exact le_trans hle hbound
  · rw [h]
    exact le_trans (replayLoop_pos_le _ s.pos s.cache hle) hbound

/-! ### `wfLog` recognises every complete record encoding -/

theorem wfLogAux_encodeRecords (recs : List (Bytes × Bytes)) :
    ∀ fuel, WFRecs recs → (encodeRecords recs).length ≤ fuel →
    wfLogAux fuel (encodeRecords recs) = true := by
  induction recs with
  | nil =>
    intro fuel _ _
    cases fuel <;> simp [wfLogAux, encodeRecords]
  | cons r rest ih =>
    intro fuel hwf hfuel
    obtain ⟨hk, hv⟩ := hwf r (List.mem_cons_self r rest)
    have hrest : WFRecs rest := fun q hq => hwf q (List.mem_cons_of_mem r hq)
    have hlen8 := length_encRecord_pos r
    have hlenr : (encodeRecords (r :: rest)).length
        = (8 + r.1.length + r.2.length) + (encodeRecords rest).length := by
      simp only [encodeRecords, List.length_append, length_encRecord r hk hv]
    cases fuel with
    | zero =>
      exfalso
      simp only [encodeRecords, List.length_append] at hfuel
      omega
    | succ f =>
      have hb : encodeRecords (r :: rest)
          = encodeLE32 r.1.length
              ++ (r.1 ++ (encodeLE32 r.2.length ++ (r.2 ++ encodeRecords rest))) := by
        simp only [encodeRecords, encRecord, encStr_eq r.1 hk,
          encStr_eq r.2 hv, List.append_assoc]
      have hbne : (encodeRecords (r :: rest)).isEmpty = false := by
        cases hE : encodeRecords (r :: rest) with
        | nil =>
          exfalso
          rw [hE] at hlenr
          simp at hlenr
          omega
        | cons x xs => rfl
      have htake4 : (encodeRecords (r :: rest)).take 4 = encodeLE32 r.1.length := by
        rw [hb]
        have h4 := List.take_left (encodeLE32 r.1.length)
          (r.1 ++ (encodeLE32 r.2.length ++ (r.2 ++ encodeRecords rest)))
        rwa [length_encodeLE32] at h4
      have hl1 : decodeLE ((encodeRecords (r :: rest)).take 4) = r.1.length := by
        rw [htake4, decodeLE_encodeLE32, Nat.mod_eq_of_lt hk]
      have hdrop1 : (encodeRecords (r :: rest)).drop (4 + r.1.length)
          = encodeLE32 r.2.length ++ (r.2 ++ encodeRecords rest) := by
        have he : encodeRecords (r :: rest)
            = (encodeLE32 r.1.length ++ r.1)
                ++ (encodeLE32 r.2.length ++ (r.2 ++ encodeRecords rest)) := by
          rw [hb]
          simp [List.append_assoc]
        rw [he]
        have hd := List.drop_left (encodeLE32 r.1.length ++ r.1)
          (encodeLE32 r.2.length ++ (r.2 ++ encodeRecords rest))
        rwa [List.length_append, length_encodeLE32] at hd
      have htake4b : ((encodeRecords (r :: rest)).drop (4 + r.1.length)).take 4
          = encodeLE32 r.2.length := by
        rw [hdrop1]
        have h4 := List.take_left (encodeLE32 r.2.length)
          (r.2 ++ encodeRecords rest)
        rwa [length_encodeLE32] at h4
      have hl2 : decodeLE (((encodeRecords (r :: rest)).drop (4 + r.1.length)).take 4)
          = r.2.length := by
        rw [htake4b, decodeLE_encodeLE32, Nat.mod_eq_of_lt hv]
      have hdrop2 : (encodeRecords (r :: rest)).drop
            (4 + r.1.length + 4 + r.2.length) = encodeRecords rest := by
        have he : encodeRecords (r :: rest)
            = ((encodeLE32 r.1.length ++ r.1)
                ++ (encodeLE32 r.2.length ++ r.2)) ++ encodeRecords rest := by
          rw [hb]
          simp [List.append_assoc]
        rw [he]
        have hd := List.drop_left ((encodeLE32 r.1.length ++ r.1)
          ++ (encodeLE32 r.2.length ++ r.2)) (encodeRecords rest)
        rw [List.length_append, List.length_append, List.length_append,
          length_encodeLE32, length_encodeLE32] at hd
        have harith : 4 + r.1.length + 4 + r.2.length
            = 4 + r.1.length + (4 + r.2.length) := by omega
        rw [harith]
        exact hd
      unfold wfLogAux
      rw [hbne]
      simp only [Bool.false_eq_true, if_false, hl1]
      rw [if_pos (by rw [hlenr]; omega)]
      simp only [hl2]
      rw [if_pos (by rw [hlenr]; omega), hdrop2]
      exact ih f hrest (by rw [hlenr] at hfuel; omega)

theorem wfLog_encodeRecords (recs : List (Bytes × Bytes)) (hwf : WFRecs recs) :
    wfLog (encodeRecords recs) = true :=
  wfLogAux_encodeRecords recs _ hwf (Nat.le_refl _)

/-! ### Claim C7 -/

/-- Claim C7 (amended): across `set`, `get`, `add`, `check` and `wait`
(iterated `check`), the read cursor `pos` is monotonically non-decreasing and
never exceeds the current file size; on a log that is a well-formed sequence
of records, `get`, `check` and `set` always leave the cursor on a record
boundary, and `add` does too *provided* it does not run in the corrupting
state `pos = size > 0` (refresh ran, or the file was empty) — in that state
`add` overwrites the log head and boundary alignment can be destroyed, see
the counterexample. -/
theorem pos_monotone_bounded_aligned :
    (∀ (lg : Option Bytes) (s : StoreState) (k v : Bytes),
      (FileStore.set lg s k v).2.pos = s.pos ∧
      (s.pos ≤ optLen lg → s.pos ≤ (FileStore.set lg s k v).1.length)) ∧
    (∀ (lg : Option Bytes) (s : StoreState) (k : Bytes),
      s.pos ≤ ((FileStore.get lg s k).stateD s).pos ∧
      (s.pos ≤ optLen lg → ((FileStore.get lg s k).stateD s).pos ≤ optLen lg)) ∧
    (∀ (lg : Option Bytes) (s : StoreState) (keys : List Bytes),
      s.pos ≤ (checkStateD (FileStore.check lg s keys) s).pos ∧
      (s.pos ≤ optLen lg →
        (checkStateD (FileStore.check lg s keys) s).pos ≤ optLen lg)) ∧
    (∀ (lg : Option Bytes) (s : StoreState) (k : Bytes) (d : Int),
      s.pos ≤ (FileStore.add lg s k d).2.2.pos ∧
      (s.pos ≤ optLen lg →
        (FileStore.add lg s k d).2.2.pos ≤ (FileStore.add lg s k d).2.1.length)) ∧
    (∀ (logs : List (Option Bytes)) (s : StoreState) (keys : List Bytes),
      s.pos ≤ (FileStore.waitChecks logs s keys).pos) ∧
    (∀ (recs : List (Bytes × Bytes)) (j : Nat) (s : StoreState) (k : Bytes),
      WFRecs recs → s.pos = (encodeRecords (recs.take j)).length →
      IsRecordBoundary (encodeRecords recs)
        ((FileStore.get (some (encodeRecords recs)) s k).stateD s).pos) ∧
    (∀ (recs : List (Bytes × Bytes)) (j : Nat) (s : StoreState)
        (keys : List Bytes),
      WFRecs recs → s.pos = (encodeRecords (recs.take j)).length →
      IsRecordBoundary (encodeRecords recs)
        (checkStateD (FileStore.check (some (encodeRecords recs)) s keys) s).pos) ∧
    (∀ (recs : List (Bytes × Bytes)) (j : Nat) (s : StoreState) (k v : Bytes),
      WFRecs recs → s.pos = (encodeRecords (recs.take j)).length →
      IsRecordBoundary (FileStore.set (some (encodeRecords recs)) s k v).1
        (FileStore.set (some (encodeRecords recs)) s k v).2.pos) ∧
    (∀ (recs : List (Bytes × Bytes)) (j : Nat) (s : StoreState) (k : Bytes)
        (d : Int),
      WFRecs recs → s.pos = (encodeRecords (recs.take j)).length →
      (s.pos < (encodeRecords recs).length ∨ recs = []) →
      IsRecordBoundary (FileStore.add (some (encodeRecords recs)) s k d).2.1
        (FileStore.add (some (encodeRecords recs)) s k d).2.2.pos) := by
  refine ⟨?_, ?_, ?_, ?_, ?_, ?_, ?_, ?_, ?_⟩
  · intro lg s k v
    rw [set_run]
    refine ⟨rfl, ?_⟩
    intro hle
    simp only [List.length_append]
    unfold optLen at hle
    omega
  · intro lg s k
    exact ⟨get_pos_mono lg s k, get_pos_le lg s k⟩
  · intro lg s keys
    exact ⟨check_pos_mono lg s keys, check_pos_le lg s keys⟩
  · intro lg s k d
    exact ⟨add_pos_mono lg s k d, add_pos_le lg s k d⟩
  · intro logs s keys
    exact waitChecks_pos_mono logs s keys
  · intro recs j s k hwf hpos
    rcases get_post_state (some (encodeRecords recs)) s k with h | ⟨c, hc, h⟩
    · rw [h, hpos]
      exact isBoundary_take recs j hwf
    · rw [h]
      have hceq : c = encodeRecords recs := by
        injection hc.symm
      subst hceq
      show IsRecordBoundary (encodeRecords recs)
        (replayLoop (encodeRecords recs) s.pos s.cache).1
      rw [hpos, replayLoop_from_boundary recs j s.cache hwf]
      have hfull := isBoundary_take recs recs.length hwf
      rwa [List.take_length] at hfull
  · intro recs j s keys hwf hpos
    rcases check_post_state (some (encodeRecords recs)) s keys with h | ⟨c, hc, h⟩
    · rw [h, hpos]
      exact isBoundary_take recs j hwf
    · rw [h]
      have hceq : c = encodeRecords recs := by
        injection hc.symm
      subst hceq
      show IsRecordBoundary (encodeRecords recs)
        (replayLoop (encodeRecords recs) s.pos s.cache).1
      rw [hpos, replayLoop_from_boundary recs j s.cache hwf]
      have hfull := isBoundary_take recs recs.length hwf
      rwa [List.take_length] at hfull
  · intro recs j s k v hwf hpos
    rw [set_run]
    simp only [Option.getD_some]
    have hlog : encodeRecords recs ++ encRecord (k, v)
        = encodeRecords (recs ++ [(k, v)]) := by
      rw [encodeRecords_append, encodeRecords_singleton]
    rw [hlog, hpos]
    exact isBoundary_append_take recs [(k, v)] j hwf
  · intro recs j s k d hwf hpos hsafe
    rcases hsafe with hlt | hnil
    · have hne : recs.drop j ≠ [] := by
        intro hnil2
        have htj : recs.take j = recs := by
          have := List.take_append_drop j recs
          rw [hnil2, List.append_nil] at this
          exact this
        rw [hpos, htj] at hlt
        omega
      rw [add_refresh recs j s k d hwf hpos hne]
      have hb := isBoundary_append_take recs
        [(k, FileStore.int64Decimal (FileStore.wrap64 (FileStore.streamParseInt64
          (mapSubscript (replayList s.cache (recs.drop j)) k).1 + d)))]
        recs.length hwf
      rw [List.take_length, encodeRecords_append, encodeRecords_singleton] at hb
      exact hb
    · subst hnil
      have hpos0 : s.pos = 0 := by
        rw [hpos]
        simp [encodeRecords]
      have hnotgt : ¬ (encodeRecords ([] : List (Bytes × Bytes))).length > s.pos := by
        simp [encodeRecords]
      rw [add_no_refresh (encodeRecords []) s k d hnotgt]
      simp only [hpos0]
      exact ⟨[], fun r hr => absurd hr (List.not_mem_nil r), by simp [encodeRecords]⟩

/-- Counterexample to claim C7 as stated: after the reachable sequence
`set("key","value")`, `get("key")` (cursor 16 = file size), `add("c", 1)`,
the instance's cursor is still 16 but the log was overwritten at its head:
16 is no longer a record boundary of the file's contents. -/
theorem pos_not_aligned_after_add_overwrite :
    FileStore.get
        (some [3, 0, 0, 0, 107, 101, 121, 5, 0, 0, 0, 118, 97, 108, 117, 101])
        initStore [107, 101, 121]
      = GetOutcome.value [118, 97, 108, 117, 101]
          ⟨16, [([107, 101, 121], [118, 97, 108, 117, 101])]⟩ ∧
    (FileStore.add
        (some [3, 0, 0, 0, 107, 101, 121, 5, 0, 0, 0, 118, 97, 108, 117, 101])
        ⟨16, [([107, 101, 121], [118, 97, 108, 117, 101])]⟩ [99] 1).2.2.pos
      = 16 ∧
    ¬ IsRecordBoundary
        (FileStore.add
          (some [3, 0, 0, 0, 107, 101, 121, 5, 0, 0, 0, 118, 97, 108, 117, 101])
          ⟨16, [([107, 101, 121], [118, 97, 108, 117, 101])]⟩ [99] 1).2.1 16 := by
  refine ⟨by decide, by decide, ?_⟩
  rintro ⟨recs, hwf, henc⟩
  have h1 : wfLog (encodeRecords recs) = true := wfLog_encodeRecords recs hwf
  rw [henc] at h1
  have h2 : wfLog ((FileStore.add
      (some [3, 0, 0, 0, 107, 101, 121, 5, 0, 0, 0, 118, 97, 108, 117, 101])
      ⟨16, [([107, 101, 121], [118, 97, 108, 117, 101])]⟩ [99] 1).2.1.take 16)
      = false := by decide
  rw [h1] at h2
  exact Bool.noConfusion h2

/-- Concrete instance of the amended C7: a one-record log, fresh instance;
`get` leaves the cursor at a record boundary, and an `add` run in the safe
state appends and keeps the boundary invariant. -/
theorem pos_monotone_bounded_aligned_witness :
    (WFRecs [([107], [118])] ∧
      initStore.pos = (encodeRecords ([([107], [118])].take 0)).length ∧
      initStore.pos < (encodeRecords [([107], [118])]).length) ∧
    IsRecordBoundary (encodeRecords [([107], [118])])
      ((FileStore.get (some (encodeRecords [([107], [118])])) initStore
        [107]).stateD initStore).pos ∧
    IsRecordBoundary
      (FileStore.add (some (encodeRecords [([107], [118])])) initStore
        [107] 1).2.1
      (FileStore.add (some (encodeRecords [([107], [118])])) initStore
        [107] 1).2.2.pos ∧
    initStore.pos ≤ ((FileStore.get (some (encodeRecords [([107], [118])]))
      initStore [107]).stateD initStore).pos :=
  ⟨⟨by decide, by decide, by decide⟩,
   pos_monotone_bounded_aligned.2.2.2.2.2.1 [([107], [118])] 0 initStore [107]
     (by decide) (by decide),
   pos_monotone_bounded_aligned.2.2.2.2.2.2.2.2 [([107], [118])] 0 initStore
     [107] 1 (by decide) (by decide) (Or.inl (by decide)),
   (pos_monotone_bounded_aligned.2.1 (some (encodeRecords [([107], [118])]))
     initStore [107]).1⟩
